import Mathlib

/-!
Shallow embedding of the CSR sparse-matrix multiplication core
(`matrixutils.c` / `matrix.c` of the repository) and proofs about it.

Modelling conventions, fixed once for the whole file:

* C `float` values are embedded as `ℚ`.  Every claim-relevant computation
  uses only `+` and `*` on values; at the concrete inputs appearing in
  theorems below all float operations are exact, so `ℚ` mirrors them.
* C `uint64_t` indices and sizes are embedded as `ℕ`.  The repository
  declares matrices exceeding index-range limits a non-goal, so the
  idealized arithmetic agrees with the 64-bit arithmetic on all in-scope
  inputs.  The two places where a `uint64_t` subtraction can wrap
  (`rowPointers[i+1] - 1` in `equals` for an empty first row, and the
  initial `j = i - 1` of the insertion sort) are modelled explicitly;
  comments at those definitions trace the C control flow.
* Out-of-bounds C array reads are modelled by `List.getD _ _ 0` and
  out-of-bounds writes by `List.set` (which is the identity out of range).
  On validated inputs every access is in range, so this choice is
  unobservable there.
* The struct fields `valuesSize`, `rowPointersSize` are the lengths of
  the corresponding lists: the code keeps them in sync with the
  allocations at every point used by the claims (`realloc` shrinking to
  `n` elements is `List.take n`).
* `malloc`/`calloc` failure and `pthread_create` failure are modelled
  only where a claim is about them (the `ResultHandle` error model at
  the end of the definitions); the pure kernels model the
  every-allocation-succeeds executions.
* The worker threads of the multithreaded kernel write disjoint,
  contiguous row ranges of the shared result (proved as claim C7), and
  the source matrices are read-only, so the thread interleaving is
  unobservable; the multithreaded kernel is embedded as the sequential
  composition of its workers in spawn order.
-/

namespace CSR

/-- The CSR matrix struct (`csrmatrix.h`): `noRows`, `noCols`, `values`,
`colIndices` (same length as `values`), `rowPointers`. -/
structure Matrix where
  noRows : Nat
  noCols : Nat
  values : List ℚ
  colIndices : List Nat
  rowPointers : List Nat
  deriving Repr, DecidableEq

/-- `for (i = s; i < e; i++)` iterates over `[s, s+1, ..., e-1]`. -/
def cRange (s e : Nat) : List Nat := List.range' s (e - s)

/-- 64-bit wrapping subtraction, for the two spots where the C code can
underflow a `uint64_t`. -/
def usub64 (x y : Nat) : Nat := (x + 2 ^ 64 - y) % 2 ^ 64

-- Error codes from `matrix.h`, `constants.h` and `matrixutils.h`.
def HEAP_MEMORY_ERROR : Int := -1
def MATRIX_DIMENSION_ERROR : Int := -2
def MATRIX_CONVERSION_ERROR : Int := -3
def THREAD_START_ERROR : Int := -5
def MIN_THREADS : Nat := 2
def THREAD_COND_MIN_VALUES : Nat := 40
def THREAD_COND_MIN_ROWS : Nat := 4

/-- `can_multiply` (`matrixutils.c`): dimensions compatible and no zero
dimension. -/
def can_multiply (a b : Matrix) : Bool :=
  (a.noCols == b.noRows) &&
    (decide (1 ≤ a.noCols) && decide (1 ≤ a.noRows)) &&
    (decide (1 ≤ b.noCols) && decide (1 ≤ b.noRows))

/-- `predict_values_dimension` (`matrixutils.c`): per-column nonzero
counts of A (`numValuesInColsA`, built by one increment per stored
entry), per-row lengths of B (`numValuesInRowB`), their dot product over
`numsSize = a.noCols` indices, clamped to `noRows_A * noCols_B`. -/
def predict_values_dimension (a b : Matrix) : Nat :=
  let maxValueSize := a.noRows * b.noCols
  let numValuesInRowB :=
    (List.range b.noRows).foldl
      (fun acc rowB =>
        acc.set rowB (b.rowPointers.getD (rowB + 1) 0 - b.rowPointers.getD rowB 0))
      (List.replicate b.noRows 0)
  let numValuesInColsA :=
    (List.range a.values.length).foldl
      (fun acc valuesIndex =>
        let column := a.colIndices.getD valuesIndex 0
        acc.set column (acc.getD column 0 + 1))
      (List.replicate a.noCols 0)
  let s :=
    (List.range a.noCols).foldl
      (fun acc index =>
        acc + numValuesInRowB.getD index 0 * numValuesInColsA.getD index 0)
      0
  if s > maxValueSize then maxValueSize else s

/-- `init_empty_csr_matrix` (`matrixutils.c`), every-allocation-succeeds
execution: `values`/`colIndices` are `calloc`ed (zero-filled) at the
predicted or worst-case size, `rowPointers` is `malloc`ed with
`noRows + 1` entries.  `rowPointers` is modelled zero-filled: every
kernel overwrites all of its entries before any read, so the `malloc`
garbage is unobservable. -/
def init_empty_csr_matrix (a b : Matrix) (predict_flag : Bool) : Matrix :=
  let valuesSize :=
    if predict_flag then predict_values_dimension a b else a.noRows * b.noCols
  { noRows := a.noRows
    noCols := b.noCols
    values := List.replicate valuesSize 0
    colIndices := List.replicate valuesSize 0
    rowPointers := List.replicate (a.noRows + 1) 0 }

/-- One iteration of the innermost (B-row) loop shared verbatim by
`multiply_V2` and `multiply_main_implementation`: accumulate
`valueA * valueB` at dense offset `rowA * noCols_result + columnB` and
record `columnB` at offset `rowA * noCols_B + columnB`. -/
def gustavsonStep (b : Matrix) (valueA : ℚ) (rowA : Nat) (r : Matrix)
    (indexB : Nat) : Matrix :=
  let valueB := b.values.getD indexB 0
  let valueC := valueA * valueB
  let columnB := b.colIndices.getD indexB 0
  { r with
    values := r.values.set (rowA * r.noCols + columnB)
      (r.values.getD (rowA * r.noCols + columnB) 0 + valueC)
    colIndices := r.colIndices.set (rowA * b.noCols + columnB) columnB }

/-- One iteration of the row loop shared verbatim by `multiply_V2` and
`multiply_main_implementation`: walk the stored entries of row `rowA` of
A, scatter into the dense-offset result, then fix the row pointer to
`(rowA + 1) * noCols_result`. -/
def gustavsonRow (a b : Matrix) (r : Matrix) (rowA : Nat) : Matrix :=
  let rowABeg := a.rowPointers.getD rowA 0
  let rowAEnd := a.rowPointers.getD (rowA + 1) 0
  let r1 :=
    (cRange rowABeg rowAEnd).foldl
      (fun r indexA =>
        let valueA := a.values.getD indexA 0
        let rowBBeg := b.rowPointers.getD (a.colIndices.getD indexA 0) 0
        let rowBEnd := b.rowPointers.getD (a.colIndices.getD indexA 0 + 1) 0
        (cRange rowBBeg rowBEnd).foldl (gustavsonStep b valueA rowA) r)
      r
  { r1 with rowPointers := r1.rowPointers.set (rowA + 1) ((rowA + 1) * r1.noCols) }

/-- `multiply_V2` (`matrixutils.c`): scalar Gustavson over a dense-sized
result buffer. -/
def multiply_V2 (a b : Matrix) (r : Matrix) : Matrix :=
  let r0 := { r with rowPointers := r.rowPointers.set 0 0 }
  (List.range a.noRows).foldl (gustavsonRow a b) r0

/-- `multiply_main_implementation` (`matrixutils.c`): the worker body of
the multithreaded kernel; identical loop body to `multiply_V2` but
restricted to the rows `[start_row, end_row)` of its argument struct. -/
def multiply_main_implementation (a b : Matrix) (start_row end_row : Nat)
    (r : Matrix) : Matrix :=
  let r0 := { r with rowPointers := r.rowPointers.set 0 0 }
  (cRange start_row end_row).foldl (gustavsonRow a b) r0

/-- The inner scan of `multiply_V5`:
`for (i = valuesBegPtr; i < valuesSize; i++)` over the current row's
slice of the result, insert at the first zero slot (moving the end
pointer to `i + 1`) or accumulate at the first matching column, with
`break` after either; falling off the end drops the term.  The scan is
embedded as structural recursion over the index list. -/
def v5Scan (valueC : ℚ) (columnB : Nat) :
    List Nat → Matrix → Nat → Matrix × Nat
  | [], r, valuesEndPtr => (r, valuesEndPtr)
  | i :: rest, r, valuesEndPtr =>
    if r.values.getD i 0 = 0 then
      ({ r with
          values := r.values.set i valueC
          colIndices := r.colIndices.set i columnB }, i + 1)
    else if r.colIndices.getD i 0 = columnB then
      ({ r with values := r.values.set i (r.values.getD i 0 + valueC) },
        valuesEndPtr)
    else v5Scan valueC columnB rest r valuesEndPtr

/-- `multiply_V5` (`matrixutils.c`): Gustavson with size prediction;
each produced term is merged into the current row's compact slice
`[valuesBegPtr, valuesSize)` by `v5Scan`; after each row the row pointer
is set to `valuesEndPtr` and `valuesBegPtr` catches up. -/
def multiply_V5 (a b : Matrix) (r : Matrix) : Matrix :=
  let r0 := { r with rowPointers := r.rowPointers.set 0 0 }
  let final :=
    (List.range a.noRows).foldl
      (fun (st : Matrix × Nat × Nat) rowA =>
        let r := st.1
        let valuesBegPtr := st.2.1
        let valuesEndPtr := st.2.2
        let rowABeg := a.rowPointers.getD rowA 0
        let rowAEnd := a.rowPointers.getD (rowA + 1) 0
        let inner :=
          (cRange rowABeg rowAEnd).foldl
            (fun (st2 : Matrix × Nat) indexA =>
              let valueA := a.values.getD indexA 0
              let rowBBeg := b.rowPointers.getD (a.colIndices.getD indexA 0) 0
              let rowBEnd :=
                b.rowPointers.getD (a.colIndices.getD indexA 0 + 1) 0
              (cRange rowBBeg rowBEnd).foldl
                (fun (st3 : Matrix × Nat) indexB =>
                  let valueB := b.values.getD indexB 0
                  let valueC := valueA * valueB
                  let columnB := b.colIndices.getD indexB 0
                  v5Scan valueC columnB
                    (cRange valuesBegPtr st3.1.values.length) st3.1 st3.2)
                st2)
            (r, valuesEndPtr)
        let r2 :=
          { inner.1 with
            rowPointers := inner.1.rowPointers.set (rowA + 1) inner.2 }
        (r2, inner.2, inner.2))
      (r0, 0, 0)
  final.1

/-- One scatter step of the SIMD kernels' batch loop: the product `p`
was computed before the scatter (vector multiply), then
`values[resultValueIndex + columnB] += p` and
`colIndices[resultColIndex + columnB] = columnB`. -/
def simdScatter (r : Matrix) (resultValueIndex resultColIndex columnB : Nat)
    (p : ℚ) : Matrix :=
  { r with
    values := r.values.set (resultValueIndex + columnB)
      (r.values.getD (resultValueIndex + columnB) 0 + p)
    colIndices := r.colIndices.set (resultColIndex + columnB) columnB }

/-- The `do { ... } while (valuesToMultiply >= 4)` batch loop of
`multiply_V3`: four products `valuesB * valueA` per round (SSE multiply,
exact on these rationals) scattered in order while `indexB` advances.
Returns the state and the final `indexB` for the scalar tail. -/
def v3Chunks (b : Matrix) (valueA : ℚ) (rvi rci : Nat) :
    Nat → Nat → Matrix → Matrix × Nat
  | n + 4, indexB, r =>
    let p0 := b.values.getD indexB 0 * valueA
    let p1 := b.values.getD (indexB + 1) 0 * valueA
    let p2 := b.values.getD (indexB + 2) 0 * valueA
    let p3 := b.values.getD (indexB + 3) 0 * valueA
    let r := simdScatter r rvi rci (b.colIndices.getD indexB 0) p0
    let r := simdScatter r rvi rci (b.colIndices.getD (indexB + 1) 0) p1
    let r := simdScatter r rvi rci (b.colIndices.getD (indexB + 2) 0) p2
    let r := simdScatter r rvi rci (b.colIndices.getD (indexB + 3) 0) p3
    v3Chunks b valueA rvi rci n (indexB + 4) r
  | _, indexB, r => (r, indexB)

/-- The `do { ... } while (valuesToMultiply >= 8)` batch loop of
`multiply_V4` (AVX, eight lanes); same scatter scheme as `v3Chunks`. -/
def v4Chunks (b : Matrix) (valueA : ℚ) (rvi rci : Nat) :
    Nat → Nat → Matrix → Matrix × Nat
  | n + 8, indexB, r =>
    let p0 := b.values.getD indexB 0 * valueA
    let p1 := b.values.getD (indexB + 1) 0 * valueA
    let p2 := b.values.getD (indexB + 2) 0 * valueA
    let p3 := b.values.getD (indexB + 3) 0 * valueA
    let p4 := b.values.getD (indexB + 4) 0 * valueA
    let p5 := b.values.getD (indexB + 5) 0 * valueA
    let p6 := b.values.getD (indexB + 6) 0 * valueA
    let p7 := b.values.getD (indexB + 7) 0 * valueA
    let r := simdScatter r rvi rci (b.colIndices.getD indexB 0) p0
    let r := simdScatter r rvi rci (b.colIndices.getD (indexB + 1) 0) p1
    let r := simdScatter r rvi rci (b.colIndices.getD (indexB + 2) 0) p2
    let r := simdScatter r rvi rci (b.colIndices.getD (indexB + 3) 0) p3
    let r := simdScatter r rvi rci (b.colIndices.getD (indexB + 4) 0) p4
    let r := simdScatter r rvi rci (b.colIndices.getD (indexB + 5) 0) p5
    let r := simdScatter r rvi rci (b.colIndices.getD (indexB + 6) 0) p6
    let r := simdScatter r rvi rci (b.colIndices.getD (indexB + 7) 0) p7
    v4Chunks b valueA rvi rci n (indexB + 8) r
  | _, indexB, r => (r, indexB)

/-- The scalar tail loop shared by `multiply_V3`/`multiply_V4`
(`for (; indexB < rowBEnd; indexB++)`), accumulating `valueA * valueB`
at the precomputed row offsets. -/
def simdTail (b : Matrix) (valueA : ℚ) (rvi rci : Nat) (r : Matrix)
    (indexB rowBEnd : Nat) : Matrix :=
  (cRange indexB rowBEnd).foldl
    (fun r indexB =>
      let valueB := b.values.getD indexB 0
      let valueC := valueA * valueB
      let columnB := b.colIndices.getD indexB 0
      simdScatter r rvi rci columnB valueC)
    r

/-- `multiply_V3` (`matrixutils.c`): Gustavson with 4-wide SSE batches
over each B row, then the scalar tail; same dense-offset result scheme
as `multiply_V2`.  The `values_to_add` staging array allocation is
modelled as succeeding. -/
def multiply_V3 (a b : Matrix) (r : Matrix) : Matrix :=
  let r0 := { r with rowPointers := r.rowPointers.set 0 0 }
  (List.range a.noRows).foldl
    (fun r rowA =>
      let rowABeg := a.rowPointers.getD rowA 0
      let rowAEnd := a.rowPointers.getD (rowA + 1) 0
      let r1 :=
        (cRange rowABeg rowAEnd).foldl
          (fun r indexA =>
            let resultValueIndex := rowA * r.noCols
            let resultColIndex := rowA * b.noCols
            let rowBBeg := b.rowPointers.getD (a.colIndices.getD indexA 0) 0
            let rowBEnd := b.rowPointers.getD (a.colIndices.getD indexA 0 + 1) 0
            let valueA := a.values.getD indexA 0
            let chunked :=
              v3Chunks b valueA resultValueIndex resultColIndex
                (rowBEnd - rowBBeg) rowBBeg r
            simdTail b valueA resultValueIndex resultColIndex chunked.1
              chunked.2 rowBEnd)
          r
      { r1 with
        rowPointers := r1.rowPointers.set (rowA + 1) ((rowA + 1) * r1.noCols) })
    r0

/-- `multiply_V4` (`matrixutils.c`): as `multiply_V3` with 8-wide AVX
batches. -/
def multiply_V4 (a b : Matrix) (r : Matrix) : Matrix :=
  let r0 := { r with rowPointers := r.rowPointers.set 0 0 }
  (List.range a.noRows).foldl
    (fun r rowA =>
      let rowABeg := a.rowPointers.getD rowA 0
      let rowAEnd := a.rowPointers.getD (rowA + 1) 0
      let r1 :=
        (cRange rowABeg rowAEnd).foldl
          (fun r indexA =>
            let resultValueIndex := rowA * r.noCols
            let resultColIndex := rowA * b.noCols
            let rowBBeg := b.rowPointers.getD (a.colIndices.getD indexA 0) 0
            let rowBEnd := b.rowPointers.getD (a.colIndices.getD indexA 0 + 1) 0
            let valueA := a.values.getD indexA 0
            let chunked :=
              v4Chunks b valueA resultValueIndex resultColIndex
                (rowBEnd - rowBBeg) rowBBeg r
            simdTail b valueA resultValueIndex resultColIndex chunked.1
              chunked.2 rowBEnd)
          r
      { r1 with
        rowPointers := r1.rowPointers.set (rowA + 1) ((rowA + 1) * r1.noCols) })
    r0

/-- The mutable state of `_clean_up_matrix_arrays`: the running nonzero
counter, the removed-zeros counter, the scan position `row_beg`, and the
three arrays being compacted in place. -/
structure CleanState where
  nz : Nat
  removed : Nat
  row_beg : Nat
  values : List ℚ
  colIndices : List Nat
  rowPointers : List Nat
  deriving Repr, DecidableEq

/-- One iteration of the `while (row_beg < row_end)` loop of
`_clean_up_matrix_arrays`: a nonzero value (and its column) is moved to
slot `nz` and `nz` increments, a zero value bumps `removed`; `row_beg`
always advances. -/
def cleanStep (s : CleanState) : CleanState :=
  if s.values.getD s.row_beg 0 ≠ 0 then
    { s with
      values := s.values.set s.nz (s.values.getD s.row_beg 0)
      colIndices := s.colIndices.set s.nz (s.colIndices.getD s.row_beg 0)
      nz := s.nz + 1
      row_beg := s.row_beg + 1 }
  else { s with removed := s.removed + 1, row_beg := s.row_beg + 1 }

/-- One iteration of the row loop of `_clean_up_matrix_arrays`:
`row_end = rowPointers[row]` (read before this row's pointer is
rewritten), the inner while loop runs `row_end - row_beg` times (each
step advances `row_beg` by one), then
`rowPointers[row] = row_end - removed`. -/
def cleanRow (s : CleanState) (row : Nat) : CleanState :=
  let row_end := s.rowPointers.getD row 0
  let s1 := (cRange s.row_beg row_end).foldl (fun s _ => cleanStep s) s
  { s1 with rowPointers := s1.rowPointers.set row (row_end - s1.removed) }

/-- `_clean_up_matrix_arrays` (`matrixutils.c`): compact the arrays in
row order starting at `row_beg = rowPointers[0]`, returning the updated
matrix and the nonzero count. -/
def clean_up_matrix_arrays (m : Matrix) : Matrix × Nat :=
  let s0 : CleanState :=
    ⟨0, 0, m.rowPointers.getD 0 0, m.values, m.colIndices, m.rowPointers⟩
  let s := (cRange 1 m.rowPointers.length).foldl cleanRow s0
  ({ m with
      values := s.values
      colIndices := s.colIndices
      rowPointers := s.rowPointers }, s.nz)

/-- `clean_up_csr` (`matrixutils.c`), every-allocation-succeeds
execution: after the in-place compaction, `values`/`colIndices` are
`realloc`ed down to `non_zero_values` elements (`List.take`; when the
count is 0 the arrays stay allocated but `valuesSize` becomes 0, which
the `take` likewise models since no further read goes past
`valuesSize`). -/
def clean_up_csr (m : Matrix) : Matrix :=
  let p := clean_up_matrix_arrays m
  { p.1 with
    values := p.1.values.take p.2
    colIndices := p.1.colIndices.take p.2 }

/-- `_swap_cols` (`matrixutils.c`): swap `cols[i]` and `cols[j]` when
both are below `size`, else do nothing. -/
def swap_cols (cols : List Nat) (size i j : Nat) : List Nat :=
  if i < size ∧ j < size then
    let tmp := cols.getD j 0
    (cols.set j (cols.getD i 0)).set i tmp
  else cols

/-- `_swap_values` (`matrixutils.c`): same guarded swap on the values
array. -/
def swap_values (values : List ℚ) (size i j : Nat) : List ℚ :=
  if i < size ∧ j < size then
    let tmp := values.getD j 0
    (values.set j (values.getD i 0)).set i tmp
  else values

/-- The inner descent `for (j = i - 1; j >= beg; j--)` of `sort_matrix`,
structurally recursive on `j`.  While `col < colIndices[j]` the element
pair is swapped down and the descent continues; otherwise the loop
breaks.  In C, `j` is a `uint64_t`: after `j = 0` the decrement wraps to
`2^64 - 1`, where the (out-of-bounds) read yields a value the strict
`col < _` test cannot pass in this model, so the loop breaks — matching
the `j = 0 → stop` case here. -/
def sortInner (size beg col : Nat) : Nat → Nat → List Nat → List ℚ →
    List Nat × List ℚ
  | cur, 0, cols, vals =>
    if beg ≤ 0 ∧ col < cols.getD 0 0 then
      (swap_cols cols size cur 0, swap_values vals size cur 0)
    else (cols, vals)
  | cur, j + 1, cols, vals =>
    if beg ≤ j + 1 ∧ col < cols.getD (j + 1) 0 then
      sortInner size beg col (j + 1) j
        (swap_cols cols size cur (j + 1)) (swap_values vals size cur (j + 1))
    else (cols, vals)

/-- `sort_matrix` (`matrixutils.c`): insertion sort of the slice
`[beg, end]` (inclusive) of the matrix's `colIndices`, moving the values
along.  The initial `j = i - 1` underflows at `i = 0` in C; there the
iteration compares `col` against a cell holding `col` itself (or an
out-of-range read) and breaks with no swap, which the truncated `i - 1`
here reproduces. -/
def sort_matrix (m : Matrix) (beg endd : Nat) : Matrix :=
  let p :=
    (cRange beg (endd + 1)).foldl
      (fun (p : List Nat × List ℚ) i =>
        let col := p.1.getD i 0
        sortInner m.values.length beg col i (i - 1) p.1 p.2)
      (m.colIndices, m.values)
  { m with colIndices := p.1, values := p.2 }

/-- `equals` (`matrixutils.c`).  The C function takes pointers and
mutates both matrices (it sorts their own arrays, not copies); the
embedding returns the verdict together with the two post-call matrices.
The `NULL` argument check has no counterpart (the model has no null
matrices).  Row bounds are read from `rowPointers`, which the sorting
never touches; `rowPointers[i+1] - 1` is the wrapping 64-bit
subtraction. -/
def equals (a b : Matrix) : Bool × Matrix × Matrix :=
  if a.noCols ≠ b.noCols ∨ a.noRows ≠ b.noRows ∨
      a.values.length ≠ b.values.length ∨
      a.rowPointers.length ≠ b.rowPointers.length then
    (false, a, b)
  else
    let st :=
      (List.range (a.rowPointers.length - 1)).foldl
        (fun (p : Matrix × Matrix) i =>
          let rowBegA := p.1.rowPointers.getD i 0
          let rowEndA := usub64 (p.1.rowPointers.getD (i + 1) 0) 1
          let rowBegB := p.2.rowPointers.getD i 0
          let rowEndB := usub64 (p.2.rowPointers.getD (i + 1) 0) 1
          (sort_matrix p.1 rowBegA rowEndA, sort_matrix p.2 rowBegB rowEndB))
        (a, b)
    let ok :=
      ((List.range st.1.values.length).all fun i =>
          (st.1.colIndices.getD i 0 == st.2.colIndices.getD i 0) &&
            (st.1.values.getD i 0 == st.2.values.getD i 0)) &&
        ((List.range st.1.rowPointers.length).all fun i =>
          st.1.rowPointers.getD i 0 == st.2.rowPointers.getD i 0)
    (ok, st.1, st.2)

/-- `csr_to_ordinary` (`matrixutils.c`), allocation succeeding: a
`noRows × noCols` zero-filled 2D array with each stored CSR entry
scattered to its cell (later duplicates of a column overwrite earlier
ones). -/
def csr_to_ordinary (csr : Matrix) : List (List ℚ) :=
  (List.range csr.noRows).foldl
    (fun ordinary i =>
      (cRange (csr.rowPointers.getD i 0) (csr.rowPointers.getD (i + 1) 0)).foldl
        (fun ordinary j =>
          let col := csr.colIndices.getD j 0
          ordinary.set i ((ordinary.getD i []).set col (csr.values.getD j 0)))
        ordinary)
    (List.replicate csr.noRows (List.replicate csr.noCols 0))

/-- `ordinary_to_csr` (`matrixutils.c`), allocation succeeding: count
the nonzero cells, then emit them in row-major order with the insertion
counter also closing each row pointer. -/
def ordinary_to_csr (noRows noCols : Nat) (ordinary : List (List ℚ)) : Matrix :=
  let filled :=
    (List.range noRows).foldl
      (fun (st : List ℚ × List Nat × List Nat) i =>
        let rowDone :=
          (List.range noCols).foldl
            (fun (st2 : List ℚ × List Nat) j =>
              if (ordinary.getD i []).getD j 0 ≠ 0 then
                (st2.1 ++ [(ordinary.getD i []).getD j 0], st2.2 ++ [j])
              else st2)
            (st.1, st.2.1)
        (rowDone.1, rowDone.2, st.2.2 ++ [rowDone.1.length]))
      ([], [], [0])
  { noRows := noRows
    noCols := noCols
    values := filled.1
    colIndices := filled.2.1
    rowPointers := filled.2.2 }

/-- The dense triple loop of `matr_mult_csr_V1` (`matrix.c`):
`ord_result[i][j] += ord_a[i][k] * ord_b[k][j]` over a zero-initialised
`noRows_A × noCols_B` array. -/
def denseMult (a b : Matrix) (ord_a ord_b : List (List ℚ)) : List (List ℚ) :=
  (List.range a.noRows).foldl
    (fun ord i =>
      (List.range b.noCols).foldl
        (fun ord j =>
          (List.range a.noCols).foldl
            (fun ord k =>
              ord.set i ((ord.getD i []).set j
                ((ord.getD i []).getD j 0 +
                  (ord_a.getD i []).getD k 0 * (ord_b.getD k []).getD j 0)))
            ord)
        ord)
    (List.replicate a.noRows (List.replicate b.noCols 0))

/-- `matr_mult_csr_V1` (`matrix.c`), every-allocation-succeeds
execution: dimension check, CSR→dense conversion of both operands,
dense triple-loop multiplication, dense→CSR conversion of the result. -/
def matr_mult_csr_V1 (a b : Matrix) : Except Int Matrix :=
  if can_multiply a b = false then .error MATRIX_DIMENSION_ERROR
  else
    let ord_a := csr_to_ordinary a
    let ord_b := csr_to_ordinary b
    .ok (ordinary_to_csr a.noRows b.noCols (denseMult a b ord_a ord_b))

/-- `matr_mult_csr_V2` (`matrix.c`): dimension check, worst-case-sized
result, scalar Gustavson, compaction. -/
def matr_mult_csr_V2 (a b : Matrix) : Except Int Matrix :=
  if can_multiply a b = false then .error MATRIX_DIMENSION_ERROR
  else .ok (clean_up_csr (multiply_V2 a b (init_empty_csr_matrix a b false)))

/-- `matr_mult_csr_V3` (`matrix.c`): as V2 with the 4-wide SIMD body. -/
def matr_mult_csr_V3 (a b : Matrix) : Except Int Matrix :=
  if can_multiply a b = false then .error MATRIX_DIMENSION_ERROR
  else .ok (clean_up_csr (multiply_V3 a b (init_empty_csr_matrix a b false)))

/-- `matr_mult_csr_V4` (`matrix.c`): probes AVX support
(`__builtin_cpu_supports`, the `avx` parameter here) and falls back to
`matr_mult_csr_V1` without it; otherwise as V2 with the 8-wide SIMD
body. -/
def matr_mult_csr_V4 (avx : Bool) (a b : Matrix) : Except Int Matrix :=
  if avx = false then matr_mult_csr_V1 a b
  else if can_multiply a b = false then .error MATRIX_DIMENSION_ERROR
  else .ok (clean_up_csr (multiply_V4 a b (init_empty_csr_matrix a b false)))

/-- `matr_mult_csr_V5` (`matrix.c`): dimension check, size-predicted
result, append-or-merge Gustavson, compaction. -/
def matr_mult_csr_V5 (a b : Matrix) : Except Int Matrix :=
  if can_multiply a b = false then .error MATRIX_DIMENSION_ERROR
  else .ok (clean_up_csr (multiply_V5 a b (init_empty_csr_matrix a b true)))

/-- The `[start_row, end_row)` pairs built by `start_threads`
(`matrixutils.c`): `step = noRows / thread_count` rows each, the first
`noRows % thread_count` workers one more, each starting where the
previous ended, and the last worker's `end_row` overwritten with
`noRows` after the loop. -/
def start_threads_ranges (thread_count noRowsA : Nat) : List (Nat × Nat) :=
  let step := noRowsA / thread_count
  let rest := noRowsA % thread_count
  let built :=
    (List.range thread_count).foldl
      (fun (st : List (Nat × Nat) × Nat) i =>
        let prev := st.2
        let prev2 := if i < rest then prev + (step + 1) else prev + step
        (st.1 ++ [(prev, prev2)], prev2))
      ([], 0)
  built.1.set (thread_count - 1)
    ((built.1.getD (thread_count - 1) (0, 0)).1, noRowsA)

/-- `matr_mult_csr` (`matrix.c`), implementation 0: fall back to
`matr_mult_csr_V5` when threading does not pay off
(`valuesSize < 10000 || noRows < MIN_THREADS`); otherwise dimension
check, worst-case-sized result, one worker per partition range (the
workers write disjoint row ranges, see the C7 theorems, so they are
composed sequentially in spawn order), then one compaction.
`get_nprocs()` is the `available_threads` parameter. -/
def matr_mult_csr (available_threads : Nat) (a b : Matrix) :
    Except Int Matrix :=
  if a.values.length < 10000 ∨ a.noRows < MIN_THREADS then
    matr_mult_csr_V5 a b
  else if can_multiply a b = false then .error MATRIX_DIMENSION_ERROR
  else
    let r := init_empty_csr_matrix a b false
    let row_weight := a.noRows / THREAD_COND_MIN_VALUES
    let elem_weight := a.noRows / THREAD_COND_MIN_ROWS
    let tmp_min := if row_weight < elem_weight then row_weight else elem_weight
    let tc0 := if tmp_min < available_threads then tmp_min else available_threads
    let thread_count := if tc0 < MIN_THREADS then MIN_THREADS else tc0
    let ranges := start_threads_ranges thread_count a.noRows
    let r2 :=
      ranges.foldl
        (fun r se => multiply_main_implementation a b se.1 se.2 r) r
    .ok (clean_up_csr r2)

/-- CSR well-formedness as enforced by the validator
(`_check_values`, `_check_col_indices`, `_check_row_pointers` in
`utils.c`): at most `noRows * noCols` stored values, none of them zero,
`colIndices` as long as `values` with in-range columns, exactly
`noRows + 1` row pointers starting at 0, consecutive pointers
non-decreasing with per-row length at most `noCols` (the C check
`next - prev > noCols` on `uint64_t` rejects any in-range decreasing
pair by wraparound), and the last pointer equal to the value count. -/
def ValidCSR (m : Matrix) : Prop :=
  m.values.length ≤ m.noRows * m.noCols ∧
  (∀ v ∈ m.values, v ≠ 0) ∧
  m.colIndices.length = m.values.length ∧
  (∀ c ∈ m.colIndices, c < m.noCols) ∧
  m.rowPointers.length = m.noRows + 1 ∧
  m.rowPointers.getD 0 0 = 0 ∧
  (∀ i, i < m.rowPointers.length - 1 →
    m.rowPointers.getD i 0 ≤ m.rowPointers.getD (i + 1) 0 ∧
    m.rowPointers.getD (i + 1) 0 - m.rowPointers.getD i 0 ≤ m.noCols) ∧
  m.rowPointers.getD m.noRows 0 = m.values.length

instance (m : Matrix) : Decidable (ValidCSR m) := by
  unfold ValidCSR; infer_instance

/-- Number of stored entries of row `r` (`rowPointers[r+1] - rowPointers[r]`). -/
def rowLen (m : Matrix) (r : Nat) : Nat :=
  m.rowPointers.getD (r + 1) 0 - m.rowPointers.getD r 0

/-- Number of stored entries of `m` whose column index is `c`. -/
def colCount (m : Matrix) (c : Nat) : Nat := m.colIndices.count c

/-- The index pairs `(indexA, indexB)` of the scalar multiply-accumulate
operations Gustavson's algorithm performs: a stored entry of A paired
with a stored entry of the B row selected by its column. -/
def macPairs (a b : Matrix) : Finset (Nat × Nat) :=
  (Finset.range a.values.length ×ˢ Finset.range b.values.length).filter
    (fun p =>
      b.rowPointers.getD (a.colIndices.getD p.1 0) 0 ≤ p.2 ∧
        p.2 < b.rowPointers.getD (a.colIndices.getD p.1 0 + 1) 0)

/-- The row of a valid CSR matrix owning stored-entry index `i`: the
number of rows that end at or before `i`. -/
def rowOfIndex (m : Matrix) (i : Nat) : Nat :=
  ((List.range m.noRows).filter
    (fun r => m.rowPointers.getD (r + 1) 0 ≤ i)).length

/-- The `(column, value)` pairs of row `r` of a CSR matrix, in storage
order. -/
def csrRowPairs (m : Matrix) (r : Nat) : List (Nat × ℚ) :=
  (cRange (m.rowPointers.getD r 0) (m.rowPointers.getD (r + 1) 0)).map
    (fun j => (m.colIndices.getD j 0, m.values.getD j 0))

/-- Structural equality of two CSR matrices "up to per-row column
ordering" (the spec's §4.10 notion, stated matrix-side rather than
through the in-place-sorting checker): same dimensions, same row
pointers, and each row holding the same multiset of `(column, value)`
pairs. -/
def structEq (m n : Matrix) : Prop :=
  m.noRows = n.noRows ∧ m.noCols = n.noCols ∧
  m.rowPointers = n.rowPointers ∧
  m.values.length = n.values.length ∧
  ∀ r, r < m.noRows →
    (Multiset.ofList (csrRowPairs m r)) = Multiset.ofList (csrRowPairs n r)

instance (m n : Matrix) : Decidable (structEq m n) := by
  unfold structEq; infer_instance

-- The initialization-phase error model (claims C4 and C10).  A
-- `ResultHandle` is the caller's result struct: each array field is
-- `none` while unallocated (`NULL`), mirroring `main`'s
-- `matrix_result->values = NULL; ...` initialization in `generator.c`.
-- Allocation outcomes are oracle booleans, one per fallible
-- initialization-phase site.  Failures occurring after the result
-- arrays exist (the SIMD staging buffer of V3/V4, thread start,
-- compaction shrinking) are deliberately outside this model: they are
-- not "during initialization".

/-- A caller-side result struct whose arrays may be unallocated. -/
structure ResultHandle where
  values : Option (List ℚ)
  colIndices : Option (List Nat)
  rowPointers : Option (List Nat)
  deriving Repr, DecidableEq

/-- The handle as `main` (`generator.c`) prepares it: all three array
fields `NULL`. -/
def nullHandle : ResultHandle := ⟨none, none, none⟩

/-- The handle after a kernel stored a finished matrix in it. -/
def finishHandle (m : Matrix) : ResultHandle :=
  ⟨some m.values, some m.colIndices, some m.rowPointers⟩

/-- `init_empty_csr_matrix` error behaviour: a failure inside
`predict_values_dimension` returns before the handle is touched; a
failure of any of the three result-array allocations jumps to
`init_matrix_error`, which nulls all three fields. -/
def init_empty_csr_matrix_err (okPredict okValues okColIndices
    okRowPointers : Bool) (predict_flag : Bool) (h : ResultHandle) :
    Int × ResultHandle :=
  if predict_flag = true ∧ okPredict = false then (HEAP_MEMORY_ERROR, h)
  else if okValues = false ∨ okColIndices = false ∨ okRowPointers = false then
    (HEAP_MEMORY_ERROR, nullHandle)
  else (0, h)

/-- `matr_mult_csr_V1` error behaviour (`matrix.c`): every fallible step
(conversion of either operand, allocation of the dense result, the
dense→CSR conversion) precedes the final copy of the result fields, so
each failure returns with the handle exactly as the caller left it. -/
def matr_mult_csr_V1_err (okOrdA okOrdB okOrdResult okTmp : Bool)
    (a b : Matrix) (h : ResultHandle) : Int × ResultHandle :=
  if can_multiply a b = false then (MATRIX_DIMENSION_ERROR, h)
  else if okOrdA = false then (MATRIX_CONVERSION_ERROR, h)
  else if okOrdB = false then (MATRIX_CONVERSION_ERROR, h)
  else if okOrdResult = false then (HEAP_MEMORY_ERROR, h)
  else if okTmp = false then (MATRIX_CONVERSION_ERROR, h)
  else
    match matr_mult_csr_V1 a b with
    | .ok m => (0, finishHandle m)
    | .error e => (e, h)

/-- `matr_mult_csr_V2` error behaviour: dimension check, then
`init_empty_csr_matrix` without prediction, then the infallible kernel
and compaction (compaction-shrink failure is post-initialization and
outside this model). -/
def matr_mult_csr_V2_err (okValues okColIndices okRowPointers : Bool)
    (a b : Matrix) (h : ResultHandle) : Int × ResultHandle :=
  if can_multiply a b = false then (MATRIX_DIMENSION_ERROR, h)
  else
    let ie := init_empty_csr_matrix_err true okValues okColIndices
      okRowPointers false h
    if ie.1 = HEAP_MEMORY_ERROR then (HEAP_MEMORY_ERROR, ie.2)
    else
      (0, finishHandle
        (clean_up_csr (multiply_V2 a b (init_empty_csr_matrix a b false))))

/-- `matr_mult_csr_V3` error behaviour (initialization phase; the
post-initialization SIMD staging-buffer failure is outside the model). -/
def matr_mult_csr_V3_err (okValues okColIndices okRowPointers : Bool)
    (a b : Matrix) (h : ResultHandle) : Int × ResultHandle :=
  if can_multiply a b = false then (MATRIX_DIMENSION_ERROR, h)
  else
    let ie := init_empty_csr_matrix_err true okValues okColIndices
      okRowPointers false h
    if ie.1 = HEAP_MEMORY_ERROR then (HEAP_MEMORY_ERROR, ie.2)
    else
      (0, finishHandle
        (clean_up_csr (multiply_V3 a b (init_empty_csr_matrix a b false))))

/-- `matr_mult_csr_V4` error behaviour: without AVX the call is
`matr_mult_csr_V1`; with it, as V2/V3. -/
def matr_mult_csr_V4_err (avx okValues okColIndices okRowPointers : Bool)
    (a b : Matrix) (h : ResultHandle) : Int × ResultHandle :=
  if avx = false then matr_mult_csr_V1_err okValues okColIndices
    okRowPointers true a b h
  else if can_multiply a b = false then (MATRIX_DIMENSION_ERROR, h)
  else
    let ie := init_empty_csr_matrix_err true okValues okColIndices
      okRowPointers false h
    if ie.1 = HEAP_MEMORY_ERROR then (HEAP_MEMORY_ERROR, ie.2)
    else
      (0, finishHandle
        (clean_up_csr (multiply_V4 a b (init_empty_csr_matrix a b false))))

/-- `matr_mult_csr_V5` error behaviour: as V2 but with size prediction,
whose own allocation failure (`okPredict`) returns before the handle is
touched. -/
def matr_mult_csr_V5_err (okPredict okValues okColIndices
    okRowPointers : Bool) (a b : Matrix) (h : ResultHandle) :
    Int × ResultHandle :=
  if can_multiply a b = false then (MATRIX_DIMENSION_ERROR, h)
  else
    let ie := init_empty_csr_matrix_err okPredict okValues okColIndices
      okRowPointers true h
    if ie.1 = HEAP_MEMORY_ERROR then (HEAP_MEMORY_ERROR, ie.2)
    else
      (0, finishHandle
        (clean_up_csr (multiply_V5 a b (init_empty_csr_matrix a b true))))

/-- `matr_mult_csr` (implementation 0) error behaviour: the
small-input fallback delegates everything to V5; otherwise dimension
check and no-prediction initialization (thread-start failure is
post-initialization and outside the model). -/
def matr_mult_csr_err (okPredict okValues okColIndices
    okRowPointers : Bool) (available_threads : Nat) (a b : Matrix)
    (h : ResultHandle) : Int × ResultHandle :=
  if a.values.length < 10000 ∨ a.noRows < MIN_THREADS then
    matr_mult_csr_V5_err okPredict okValues okColIndices okRowPointers a b h
  else if can_multiply a b = false then (MATRIX_DIMENSION_ERROR, h)
  else
    let ie := init_empty_csr_matrix_err true okValues okColIndices
      okRowPointers false h
    if ie.1 = HEAP_MEMORY_ERROR then (HEAP_MEMORY_ERROR, ie.2)
    else
      match matr_mult_csr available_threads a b with
      | .ok m => (0, finishHandle m)
      | .error e => (e, h)

-- Concrete matrices used by the closed theorems below.

/-- Matrix A of the spec's concrete scenario (§8): 2×3, row 0 holding
1 and 2 at columns 0 and 1, row 1 holding 3 at column 2. -/
def exampleA : Matrix := ⟨2, 3, [1, 2, 3], [0, 1, 2], [0, 2, 3]⟩

/-- Matrix B of the spec's concrete scenario: 3×2, row 0 holding 4 at
column 1, row 2 holding 5 at column 0. -/
def exampleB : Matrix := ⟨3, 2, [4, 5], [1, 0], [0, 1, 1, 2]⟩

/-- The expected 2×2 product of the concrete scenario. -/
def exampleProduct : Matrix := ⟨2, 2, [4, 15], [1, 0], [0, 1, 2]⟩

/-- A 1×3 input whose single row produces an exact mid-row cancellation
at column 0 (terms +1 then −1) between two insertions. -/
def cancelA : Matrix := ⟨1, 3, [1, 1, 1], [0, 1, 2], [0, 3]⟩

/-- The companion 3×3 input: row 0 = {col 0: 1}, row 1 = {col 1: 2},
row 2 = {col 0: −1, col 2: 7}.  The mathematical product
`cancelA * cancelB` is the single row {col 1: 2, col 2: 7}. -/
def cancelB : Matrix := ⟨3, 3, [1, 2, -1, 7], [0, 1, 0, 2], [0, 1, 2, 4]⟩

/-- The correct product of `cancelA` and `cancelB`, as returned by the
V1 and V2 kernels. -/
def cancelProduct : Matrix := ⟨1, 3, [2, 7], [1, 2], [0, 2]⟩

/-- What the V5 kernel actually returns on `cancelA`, `cancelB`: the
column-1 entry is lost when the freed slot 0 is reused and
`valuesEndPtr` moves backwards. -/
def cancelV5Result : Matrix := ⟨1, 3, [7], [2], [0, 1]⟩

/-- A valid CSR matrix (per the validator) whose single row stores
column 0 twice; the duplicate is collapsed by the dense round trip. -/
def dupColsM : Matrix := ⟨1, 2, [1, 2], [0, 0], [0, 2]⟩

/-- A 1×2 matrix whose row is stored in descending column order; the
equality checker's in-place sort reorders its arrays. -/
def unsortedM : Matrix := ⟨1, 2, [5, 6], [1, 0], [0, 2]⟩

/-- The same sparse matrix with the row stored in ascending column
order. -/
def sortedM : Matrix := ⟨1, 2, [6, 5], [0, 1], [0, 2]⟩

/-- Closed form of the worker start rows produced by `start_threads`:
worker `i` starts at `i * step + min i rest`. -/
def tStart (rows tc i : Nat) : Nat := i * (rows / tc) + min i (rows % tc)

/-- Cell `(i, j)` of a dense 2D array (0 outside the allocation). -/
def get2 (m : List (List ℚ)) (i j : Nat) : ℚ := (m.getD i []).getD j 0

/-- Dense-offset slots a multiply-accumulate operation of Gustavson's
algorithm can touch: `row(iA) * noCols_B + col(iB)` for a MAC pair
`(iA, iB)`. -/
def TargetSlot (a b : Matrix) (p : Nat) : Prop :=
  ∃ iA iB, (iA, iB) ∈ macPairs a b ∧
    p = rowOfIndex a iA * b.noCols + b.colIndices.getD iB 0

/-- Cells a multiply-accumulate operation can touch, as `(row, column)`
pairs (used for the dense reference kernel). -/
def TargetCell (a b : Matrix) (rc : Nat × Nat) : Prop :=
  ∃ iA iB, (iA, iB) ∈ macPairs a b ∧
    rc.1 = rowOfIndex a iA ∧ rc.2 = b.colIndices.getD iB 0

/-- Invariant carried through every dense-offset kernel: the result
keeps `noCols_B` columns and its worst-case-sized values buffer, and a
nonzero slot can only be one some MAC operation targeted. -/
def DenseInv (a b : Matrix) (r : Matrix) : Prop :=
  r.noCols = b.noCols ∧ r.values.length = a.noRows * b.noCols ∧
  ∀ p, r.values.getD p 0 ≠ 0 → TargetSlot a b p

/-- Invariant of the compaction scan: array length is preserved, the
nonzero counter is bounded by the number of nonzero original slots
before the scan position, and the unscanned suffix still holds the
original values. -/
def CleanBoundInv (origV : List ℚ) (s : CleanState) : Prop :=
  s.values.length = origV.length ∧
  s.nz ≤ ((Finset.range s.row_beg).filter
    (fun p => origV.getD p 0 ≠ 0)).card ∧
  ∀ q, s.row_beg ≤ q → s.values.getD q 0 = origV.getD q 0

/-- Invariant of the dense triple-loop multiplication: a nonzero cell
has at least one nonzero contributing product. -/
def DenseProdInv (aCols : Nat) (ordA ordB ord : List (List ℚ)) : Prop :=
  ∀ p q, get2 ord p q ≠ 0 →
    ∃ k, k < aCols ∧ get2 ordA p k ≠ 0 ∧ get2 ordB k q ≠ 0

/-- Invariant of the CSR→dense scatter: a nonzero cell `(p, q)` has a
stored entry of row `p` with column `q`. -/
def ScatterInv (m : Matrix) (ord : List (List ℚ)) : Prop :=
  ∀ p q, get2 ord p q ≠ 0 →
    ∃ j, m.rowPointers.getD p 0 ≤ j ∧ j < m.rowPointers.getD (p + 1) 0 ∧
      m.colIndices.getD j 0 = q

/-- The column indices of the nonzero cells of dense row `i`, in the
increasing order `ordinary_to_csr` emits them. -/
def denseRowCols (D : List (List ℚ)) (noCols i : Nat) : List Nat :=
  (List.range noCols).filter (fun j => decide ((D.getD i []).getD j 0 ≠ 0))

/-- The row-pointer tail built by `ordinary_to_csr`: running totals of
the per-row nonzero counts `ks` on top of the count `t` already
emitted. -/
def ptrSums (t : Nat) : List Nat → List Nat
  | [] => []
  | k :: ks => (t + k) :: ptrSums (t + k) ks

-- THEOREMS --

theorem tStart_zero (rows tc : Nat) : tStart rows tc 0 = 0 := by
  simp [tStart]

theorem tStart_succ (rows tc i : Nat) :
    tStart rows tc (i + 1) =
      if i < rows % tc then tStart rows tc i + (rows / tc + 1)
      else tStart rows tc i + rows / tc := by
  unfold tStart
  rw [Nat.add_mul, Nat.one_mul]
  by_cases h : i < rows % tc
  · rw [if_pos h, Nat.min_eq_left (Nat.le_of_lt h),
      Nat.min_eq_left (Nat.succ_le_of_lt h)]
    omega
  · rw [if_neg h, Nat.min_eq_right (Nat.le_of_not_lt h),
      Nat.min_eq_right (Nat.le_trans (Nat.le_of_not_lt h) (Nat.le_succ i))]
    omega

theorem tStart_mono (rows tc : Nat) : Monotone (tStart rows tc) := by
  apply monotone_nat_of_le_succ
  intro i
  rw [tStart_succ]
  split
  · exact Nat.le_add_right _ _
  · exact Nat.le_add_right _ _

theorem tStart_top (rows tc : Nat) (htc : 1 ≤ tc) : tStart rows tc tc = rows := by
  unfold tStart
  rw [Nat.min_eq_right (Nat.le_of_lt (Nat.mod_lt rows htc)), Nat.div_add_mod]

theorem List_set_getD_self {α : Type} (l : List α) (i : Nat) (d : α)
    (hi : i < l.length) : l.set i (l.getD i d) = l := by
  apply List.ext_getElem
  · simp
  · intro n h1 h2
    rw [List.getElem_set]
    split
    · subst n
      rw [List.getD_eq_getElem l d hi]
    · rfl

theorem start_threads_ranges_eq (rows tc : Nat) (htc : 1 ≤ tc) :
    start_threads_ranges tc rows =
      (List.range tc).map
        (fun i => (tStart rows tc i, tStart rows tc (i + 1))) := by
  have key : ∀ n : Nat,
      (List.range n).foldl
        (fun (st : List (Nat × Nat) × Nat) i =>
          let prev := st.2
          let prev2 :=
            if i < rows % tc then prev + (rows / tc + 1) else prev + rows / tc
          (st.1 ++ [(prev, prev2)], prev2))
        ([], 0) =
      ((List.range n).map
        (fun i => (tStart rows tc i, tStart rows tc (i + 1))),
        tStart rows tc n) := by
    intro n
    induction n with
    | zero => simp [tStart_zero]
    | succ n ih =>
      rw [List.range_succ, List.foldl_append, ih, List.map_append]
      simp only [List.foldl_cons, List.foldl_nil, List.map_cons, List.map_nil]
      rw [tStart_succ]
  have hlen : tc - 1 <
      ((List.range tc).map
        (fun i => (tStart rows tc i, tStart rows tc (i + 1)))).length := by
    simp only [List.length_map, List.length_range]
    omega
  have hget : ((List.range tc).map
      (fun i => (tStart rows tc i, tStart rows tc (i + 1)))).getD (tc - 1)
        (0, 0) = (tStart rows tc (tc - 1), tStart rows tc tc) := by
    rw [List.getD_eq_getElem _ _ hlen]
    simp only [List.getElem_map, List.getElem_range]
    have h1 : tc - 1 + 1 = tc := by omega
    rw [h1]
  simp only [start_threads_ranges]
  rw [key tc, hget]
  have h2 : ((tStart rows tc (tc - 1), rows) : Nat × Nat) =
      ((List.range tc).map
        (fun i => (tStart rows tc i, tStart rows tc (i + 1)))).getD (tc - 1)
          (0, 0) := by
    rw [hget, tStart_top rows tc htc]
  rw [h2, List_set_getD_self _ _ _ hlen]

theorem ranges_getD (rows tc i : Nat) (htc : 1 ≤ tc) (hi : i < tc) :
    (start_threads_ranges tc rows).getD i (0, 0) =
      (tStart rows tc i, tStart rows tc (i + 1)) := by
  rw [start_threads_ranges_eq rows tc htc]
  have hlen : i < ((List.range tc).map
      (fun i => (tStart rows tc i, tStart rows tc (i + 1)))).length := by
    simpa using hi
  rw [List.getD_eq_getElem _ _ hlen, List.getElem_map, List.getElem_range]

theorem mono_partition_exists (f : Nat → Nat) (_hf : Monotone f) :
    ∀ n row, f 0 ≤ row → row < f n →
      ∃ i, i < n ∧ f i ≤ row ∧ row < f (i + 1) := by
  intro n
  induction n with
  | zero => intro row h1 h2; omega
  | succ n ih =>
    intro row h1 h2
    by_cases h : f n ≤ row
    · exact ⟨n, Nat.lt_succ_self n, h, h2⟩
    · obtain ⟨i, hi, hle, hlt⟩ := ih row h1 (Nat.lt_of_not_le h)
      exact ⟨i, Nat.lt_succ_of_lt hi, hle, hlt⟩

/-- C7: for every `rowCount ≥ 1` and `thread_count ≥ 1`, the
`[start_row, end_row)` ranges built by `start_threads` are one per
worker, contiguous — the first worker starts at row 0, each subsequent
worker starts where the previous ended, the last worker ends at
`rowCount` — and they cover `[0, rowCount)` with every row in exactly
one worker's range (in particular pairwise disjoint). -/
theorem C7_thread_partition_covers (rows tc : Nat) (_hrows : 1 ≤ rows)
    (htc : 1 ≤ tc) :
    (start_threads_ranges tc rows).length = tc ∧
    ((start_threads_ranges tc rows).getD 0 (0, 0)).1 = 0 ∧
    (∀ i, i + 1 < tc →
      ((start_threads_ranges tc rows).getD (i + 1) (0, 0)).1 =
        ((start_threads_ranges tc rows).getD i (0, 0)).2) ∧
    ((start_threads_ranges tc rows).getD (tc - 1) (0, 0)).2 = rows ∧
    (∀ row, row < rows → ∃! i, i < tc ∧
      ((start_threads_ranges tc rows).getD i (0, 0)).1 ≤ row ∧
      row < ((start_threads_ranges tc rows).getD i (0, 0)).2) := by
  refine ⟨?_, ?_, ?_, ?_, ?_⟩
  · rw [start_threads_ranges_eq rows tc htc]; simp
  · rw [ranges_getD rows tc 0 htc htc, tStart_zero]
  · intro i hi
    rw [ranges_getD rows tc (i + 1) htc hi,
      ranges_getD rows tc i htc (by omega)]
  · rw [ranges_getD rows tc (tc - 1) htc (by omega)]
    have : tc - 1 + 1 = tc := by omega
    simp only [this]
    exact tStart_top rows tc htc
  · intro row hrow
    have hcover : row < tStart rows tc tc := by
      rw [tStart_top rows tc htc]; exact hrow
    obtain ⟨i, hi, hle, hlt⟩ :=
      mono_partition_exists (tStart rows tc) (tStart_mono rows tc) tc row
        (by rw [tStart_zero]; omega) hcover
    refine ⟨i, ⟨hi, ?_, ?_⟩, ?_⟩
    · rw [ranges_getD rows tc i htc hi]; exact hle
    · rw [ranges_getD rows tc i htc hi]; exact hlt
    · intro j hj
      obtain ⟨hjtc, hjle, hjlt⟩ := hj
      rw [ranges_getD rows tc j htc hjtc] at hjle hjlt
      by_contra hne
      rcases Nat.lt_or_ge j i with hji | hij
      · have : j + 1 ≤ i := hji
        have := tStart_mono rows tc this
        omega
      · have hij' : i < j := by omega
        have : i + 1 ≤ j := hij'
        have := tStart_mono rows tc this
        omega

/-- Witness for C7 at `rowCount = 10`, `thread_count = 3` (ranges
`[0,4) [4,7) [7,10)`). -/
theorem C7_thread_partition_covers_witness :
    ((start_threads_ranges 3 10).getD 2 (0, 0)).2 = 10 :=
  (C7_thread_partition_covers 10 3 (by decide) (by decide)).2.2.2.1

theorem rp_chain (l : List Nat)
    (hm : ∀ i, i + 1 < l.length → l.getD i 0 ≤ l.getD (i + 1) 0) :
    ∀ i j, i ≤ j → j < l.length → l.getD i 0 ≤ l.getD j 0 := by
  intro i j hij hj
  induction j, hij using Nat.le_induction with
  | base => exact le_refl _
  | succ j hij ih =>
    exact le_trans (ih (by omega)) (hm j (by omega))

theorem cleanStep_iter (V : List ℚ) (C : List Nat) (R : List Nat)
    (hz : ∀ v ∈ V, v ≠ 0) (hcl : C.length = V.length) :
    ∀ k p, p + k ≤ V.length →
      (cRange p (p + k)).foldl (fun s _ => cleanStep s)
        (⟨p, 0, p, V, C, R⟩ : CleanState) =
        (⟨p + k, 0, p + k, V, C, R⟩ : CleanState) := by
  intro k
  induction k with
  | zero => intro p _; simp [cRange]
  | succ k ih =>
    intro p hp
    have hcr : cRange p (p + (k + 1)) = p :: cRange (p + 1) (p + 1 + k) := by
      unfold cRange
      rw [Nat.add_sub_cancel_left, Nat.add_sub_cancel_left, List.range'_succ]
    have hpV : p < V.length := by omega
    have hstep : cleanStep (⟨p, 0, p, V, C, R⟩ : CleanState) =
        (⟨p + 1, 0, p + 1, V, C, R⟩ : CleanState) := by
      unfold cleanStep
      have hv : V.getD p 0 ≠ 0 := by
        rw [List.getD_eq_getElem V 0 hpV]
        exact hz _ (List.getElem_mem hpV)
      rw [if_pos hv]
      simp only
      rw [List_set_getD_self V p 0 hpV,
        List_set_getD_self C p 0 (by omega : p < C.length)]
    rw [hcr, List.foldl_cons, hstep,
      show p + (k + 1) = p + 1 + k from by omega]
    exact ih (p + 1) (by omega)

theorem cleanRows_fold (V : List ℚ) (C : List Nat) (R : List Nat)
    (hz : ∀ v ∈ V, v ≠ 0) (hcl : C.length = V.length)
    (h0 : R.getD 0 0 = 0)
    (hmono : ∀ i, i + 1 < R.length → R.getD i 0 ≤ R.getD (i + 1) 0)
    (hub : ∀ j, j < R.length → R.getD j 0 ≤ V.length) :
    ∀ n, n < R.length →
      (cRange 1 (1 + n)).foldl cleanRow
        (⟨0, 0, R.getD 0 0, V, C, R⟩ : CleanState) =
        (⟨R.getD n 0, 0, R.getD n 0, V, C, R⟩ : CleanState) := by
  intro n
  induction n with
  | zero =>
    intro _
    have hnil : cRange 1 (1 + 0) = [] := by
      unfold cRange
      norm_num
    rw [hnil, List.foldl_nil, h0]
  | succ n ih =>
    intro hn
    have hcr : cRange 1 (1 + (n + 1)) = cRange 1 (1 + n) ++ [1 + n] := by
      unfold cRange
      rw [Nat.add_sub_cancel_left, Nat.add_sub_cancel_left, List.range'_concat]
      simp
    rw [hcr, List.foldl_append, ih (by omega), List.foldl_cons, List.foldl_nil]
    have h1n : (1 + n : Nat) = n + 1 := by omega
    rw [h1n]
    have hple : R.getD n 0 ≤ R.getD (n + 1) 0 := hmono n (by omega)
    have hub1 : R.getD (n + 1) 0 ≤ V.length := hub (n + 1) hn
    unfold cleanRow
    simp only
    rw [show cRange (R.getD n 0) (R.getD (n + 1) 0) =
        cRange (R.getD n 0) (R.getD n 0 + (R.getD (n + 1) 0 - R.getD n 0)) by
      rw [Nat.add_sub_cancel' hple]]
    rw [cleanStep_iter V C R hz hcl (R.getD (n + 1) 0 - R.getD n 0)
      (R.getD n 0) (by omega)]
    simp only
    rw [Nat.add_sub_cancel' hple, Nat.sub_zero,
      List_set_getD_self R (n + 1) 0 hn]

/-- C5: running the compactor (`clean_up_csr`) on an already-compact
matrix — no stored value is zero, `colIndices` matches `values` in
length, and the row pointers are consistent (starting at 0,
non-decreasing, ending at `valuesSize`) — changes nothing: values,
colIndices, rowPointers, valuesSize and the dimensions are all exactly
as before. -/
theorem C5_compaction_identity_on_compact (m : Matrix)
    (hz : ∀ v ∈ m.values, v ≠ 0)
    (hcl : m.colIndices.length = m.values.length)
    (h0 : m.rowPointers.getD 0 0 = 0)
    (hmono : ∀ i, i < m.rowPointers.length - 1 →
      m.rowPointers.getD i 0 ≤ m.rowPointers.getD (i + 1) 0)
    (hlast : m.rowPointers.getD (m.rowPointers.length - 1) 0 =
      m.values.length) :
    clean_up_csr m = m := by
  obtain ⟨nr, nc, V, C, R⟩ := m
  simp only at hz hcl h0 hmono hlast
  have hmono : ∀ i, i + 1 < R.length → R.getD i 0 ≤ R.getD (i + 1) 0 :=
    fun i hi => hmono i (by omega)
  have hub : ∀ j, j < R.length → R.getD j 0 ≤ V.length := by
    intro j hj
    calc R.getD j 0 ≤ R.getD (R.length - 1) 0 :=
          rp_chain R hmono j (R.length - 1) (by omega) (by omega)
      _ = V.length := hlast
  unfold clean_up_csr clean_up_matrix_arrays
  simp only
  match hR : R.length with
  | 0 =>
    have hRnil : R = [] := List.length_eq_zero.mp hR
    have hVnil : V = [] := by
      apply List.length_eq_zero.mp
      subst hRnil
      simpa using hlast.symm
    have hCnil : C = [] := by
      apply List.length_eq_zero.mp
      rw [hcl, hVnil]
      rfl
    subst hRnil hVnil hCnil
    simp [cRange]
  | k + 1 =>
    have hfold := cleanRows_fold V C R hz hcl h0 hmono hub k (by omega)
    rw [show cRange 1 (k + 1) = cRange 1 (1 + k) from by congr 1; omega]
    rw [hfold]
    simp only
    have hnz : R.getD k 0 = V.length := by
      rw [← hlast, hR]
      simp
    rw [hnz, List.take_length, show V.length = C.length from hcl.symm,
      List.take_length]

/-- Witness for C5: the compactor leaves the compact 2×2 matrix
`{values=[1,2], colIndices=[1,0], rowPointers=[0,1,2]}` unchanged. -/
theorem C5_compaction_identity_on_compact_witness :
    clean_up_csr ⟨2, 2, [1, 2], [1, 0], [0, 1, 2]⟩ =
      (⟨2, 2, [1, 2], [1, 0], [0, 1, 2]⟩ : Matrix) :=
  C5_compaction_identity_on_compact ⟨2, 2, [1, 2], [1, 0], [0, 1, 2]⟩
    (by decide) (by decide) (by decide) (by decide) (by decide)

theorem swapHead {α : Type} (t : List α) (j : Nat) (x : α) (hj : j < t.length) :
    (t[j] :: t.set j x).Perm (x :: t) := by
  induction t generalizing j with
  | nil => simp at hj
  | cons y s ih =>
    cases j with
    | zero =>
      simp only [List.getElem_cons_zero, List.set_cons_zero]
      exact List.Perm.swap x y s
    | succ j =>
      have hj2 : j < s.length := by simpa using hj
      simp only [List.getElem_cons_succ, List.set_cons_succ]
      exact List.Perm.trans (List.Perm.swap y (s[j]) (s.set j x))
        (List.Perm.trans (List.Perm.cons y (ih j hj2)) (List.Perm.swap x y s))

theorem swap_pair_perm {α : Type} (l : List α) (i j : Nat) (hi : i < l.length)
    (hj : j < l.length) : ((l.set j l[i]).set i l[j]).Perm l := by
  induction l generalizing i j with
  | nil => simp at hi
  | cons y s ih =>
    cases i with
    | zero =>
      cases j with
      | zero => simp
      | succ j =>
        have hj2 : j < s.length := by simpa using hj
        simp only [List.getElem_cons_zero, List.getElem_cons_succ,
          List.set_cons_succ, List.set_cons_zero]
        exact swapHead s j y hj2
    | succ i =>
      cases j with
      | zero =>
        have hi2 : i < s.length := by simpa using hi
        simp only [List.getElem_cons_zero, List.getElem_cons_succ,
          List.set_cons_succ, List.set_cons_zero]
        exact swapHead s i y hi2
      | succ j =>
        have hi2 : i < s.length := by simpa using hi
        have hj2 : j < s.length := by simpa using hj
        simp only [List.getElem_cons_succ, List.set_cons_succ]
        exact List.Perm.cons y (ih i j hi2 hj2)

theorem zip_set {α β : Type} (A : List α) (B : List β) (n : Nat) (x : α)
    (y : β) :
    n < A.length → n < B.length →
      (A.set n x).zip (B.set n y) = (A.zip B).set n (x, y) := by
  induction A generalizing B n with
  | nil => intro h _; simp at h
  | cons a A ih =>
    intro hA hB
    cases B with
    | nil => simp at hB
    | cons b B =>
      cases n with
      | zero => simp
      | succ n =>
        simp only [List.set_cons_succ, List.zip_cons_cons]
        rw [ih B n (by simpa using hA) (by simpa using hB)]

theorem swap_step_facts (cols : List Nat) (vals : List ℚ) (size i j : Nat)
    (hc : size ≤ cols.length) (hv : size ≤ vals.length) :
    ((swap_cols cols size i j).zip (swap_values vals size i j)).Perm
      (cols.zip vals) ∧
    (swap_cols cols size i j).length = cols.length ∧
    (swap_values vals size i j).length = vals.length := by
  unfold swap_cols swap_values
  by_cases h : i < size ∧ j < size
  · rw [if_pos h, if_pos h]
    have hic : i < cols.length := lt_of_lt_of_le h.1 hc
    have hjc : j < cols.length := lt_of_lt_of_le h.2 hc
    have hiv : i < vals.length := lt_of_lt_of_le h.1 hv
    have hjv : j < vals.length := lt_of_lt_of_le h.2 hv
    refine ⟨?_, by simp, by simp⟩
    rw [List.getD_eq_getElem cols 0 hic, List.getD_eq_getElem cols 0 hjc,
      List.getD_eq_getElem vals 0 hiv, List.getD_eq_getElem vals 0 hjv]
    show (((cols.set j cols[i]).set i cols[j]).zip
      ((vals.set j vals[i]).set i vals[j])).Perm (cols.zip vals)
    rw [zip_set (cols.set j cols[i]) (vals.set j vals[i]) i _ _
      (by simpa using hic) (by simpa using hiv),
      zip_set cols vals j _ _ hjc hjv]
    have hiz : i < (cols.zip vals).length := by
      rw [List.length_zip]
      omega
    have hjz : j < (cols.zip vals).length := by
      rw [List.length_zip]
      omega
    have e1 : ((cols[i], vals[i]) : Nat × ℚ) = (cols.zip vals)[i] := by
      rw [List.getElem_zip]
    have e2 : ((cols[j], vals[j]) : Nat × ℚ) = (cols.zip vals)[j] := by
      rw [List.getElem_zip]
    rw [e1, e2]
    exact swap_pair_perm (cols.zip vals) i j hiz hjz
  · rw [if_neg h, if_neg h]
    exact ⟨List.Perm.refl _, rfl, rfl⟩

theorem sortInner_facts (size beg col : Nat) :
    ∀ (j cur : Nat) (cols : List Nat) (vals : List ℚ),
      size ≤ cols.length → size ≤ vals.length →
      ((sortInner size beg col cur j cols vals).1.zip
        (sortInner size beg col cur j cols vals).2).Perm (cols.zip vals) ∧
      (sortInner size beg col cur j cols vals).1.length = cols.length ∧
      (sortInner size beg col cur j cols vals).2.length = vals.length := by
  intro j
  induction j with
  | zero =>
    intro cur cols vals hc hv
    unfold sortInner
    split
    · exact swap_step_facts cols vals size cur 0 hc hv
    · exact ⟨List.Perm.refl _, rfl, rfl⟩
  | succ j ih =>
    intro cur cols vals hc hv
    unfold sortInner
    split
    · obtain ⟨hswap, hlc, hlv⟩ :=
        swap_step_facts cols vals size cur (j + 1) hc hv
      obtain ⟨hrec, hrc, hrv⟩ := ih (j + 1)
        (swap_cols cols size cur (j + 1))
        (swap_values vals size cur (j + 1))
        (by omega) (by omega)
      exact ⟨hrec.trans hswap, by omega, by omega⟩
    · exact ⟨List.Perm.refl _, rfl, rfl⟩

theorem sort_matrix_facts (m : Matrix) (beg endd : Nat)
    (hcv : m.colIndices.length = m.values.length) :
    (sort_matrix m beg endd).noRows = m.noRows ∧
    (sort_matrix m beg endd).noCols = m.noCols ∧
    (sort_matrix m beg endd).rowPointers = m.rowPointers ∧
    ((sort_matrix m beg endd).colIndices.zip
      (sort_matrix m beg endd).values).Perm
      (m.colIndices.zip m.values) ∧
    (sort_matrix m beg endd).colIndices.length = m.colIndices.length ∧
    (sort_matrix m beg endd).values.length = m.values.length := by
  have key : ∀ (is : List Nat) (p : List Nat × List ℚ),
      m.values.length ≤ p.1.length → m.values.length ≤ p.2.length →
      ((is.foldl
        (fun (p : List Nat × List ℚ) i =>
          sortInner m.values.length beg (p.1.getD i 0) i (i - 1) p.1 p.2)
        p).1.zip
        (is.foldl
          (fun (p : List Nat × List ℚ) i =>
            sortInner m.values.length beg (p.1.getD i 0) i (i - 1) p.1 p.2)
          p).2).Perm (p.1.zip p.2) ∧
      (is.foldl
        (fun (p : List Nat × List ℚ) i =>
          sortInner m.values.length beg (p.1.getD i 0) i (i - 1) p.1 p.2)
        p).1.length = p.1.length ∧
      (is.foldl
        (fun (p : List Nat × List ℚ) i =>
          sortInner m.values.length beg (p.1.getD i 0) i (i - 1) p.1 p.2)
        p).2.length = p.2.length := by
    intro is
    induction is with
    | nil => intro p _ _; exact ⟨List.Perm.refl _, rfl, rfl⟩
    | cons i is ih =>
      intro p hc hv
      simp only [List.foldl_cons]
      obtain ⟨hstep, hsc, hsv⟩ := sortInner_facts m.values.length beg
        (p.1.getD i 0) (i - 1) i p.1 p.2 hc hv
      obtain ⟨hrec, hrc, hrv⟩ := ih
        (sortInner m.values.length beg (p.1.getD i 0) i (i - 1) p.1 p.2)
        (by omega) (by omega)
      exact ⟨hrec.trans hstep, by omega, by omega⟩
  obtain ⟨h1, h2, h3⟩ := key (cRange beg (endd + 1)) (m.colIndices, m.values)
    (le_of_eq hcv.symm) (le_refl _)
  unfold sort_matrix
  exact ⟨rfl, rfl, rfl, h1, h2, h3⟩

theorem equals_fold_facts :
    ∀ (is : List Nat) (p : Matrix × Matrix),
      p.1.colIndices.length = p.1.values.length →
      p.2.colIndices.length = p.2.values.length →
      (is.foldl
        (fun (p : Matrix × Matrix) i =>
          (sort_matrix p.1 (p.1.rowPointers.getD i 0)
            (usub64 (p.1.rowPointers.getD (i + 1) 0) 1),
           sort_matrix p.2 (p.2.rowPointers.getD i 0)
            (usub64 (p.2.rowPointers.getD (i + 1) 0) 1)))
        p).1.noRows = p.1.noRows ∧
      (is.foldl
        (fun (p : Matrix × Matrix) i =>
          (sort_matrix p.1 (p.1.rowPointers.getD i 0)
            (usub64 (p.1.rowPointers.getD (i + 1) 0) 1),
           sort_matrix p.2 (p.2.rowPointers.getD i 0)
            (usub64 (p.2.rowPointers.getD (i + 1) 0) 1)))
        p).1.noCols = p.1.noCols ∧
      (is.foldl
        (fun (p : Matrix × Matrix) i =>
          (sort_matrix p.1 (p.1.rowPointers.getD i 0)
            (usub64 (p.1.rowPointers.getD (i + 1) 0) 1),
           sort_matrix p.2 (p.2.rowPointers.getD i 0)
            (usub64 (p.2.rowPointers.getD (i + 1) 0) 1)))
        p).1.rowPointers = p.1.rowPointers ∧
      ((is.foldl
        (fun (p : Matrix × Matrix) i =>
          (sort_matrix p.1 (p.1.rowPointers.getD i 0)
            (usub64 (p.1.rowPointers.getD (i + 1) 0) 1),
           sort_matrix p.2 (p.2.rowPointers.getD i 0)
            (usub64 (p.2.rowPointers.getD (i + 1) 0) 1)))
        p).1.colIndices.zip
        (is.foldl
          (fun (p : Matrix × Matrix) i =>
            (sort_matrix p.1 (p.1.rowPointers.getD i 0)
              (usub64 (p.1.rowPointers.getD (i + 1) 0) 1),
             sort_matrix p.2 (p.2.rowPointers.getD i 0)
              (usub64 (p.2.rowPointers.getD (i + 1) 0) 1)))
          p).1.values).Perm (p.1.colIndices.zip p.1.values) ∧
      (is.foldl
        (fun (p : Matrix × Matrix) i =>
          (sort_matrix p.1 (p.1.rowPointers.getD i 0)
            (usub64 (p.1.rowPointers.getD (i + 1) 0) 1),
           sort_matrix p.2 (p.2.rowPointers.getD i 0)
            (usub64 (p.2.rowPointers.getD (i + 1) 0) 1)))
        p).2.noRows = p.2.noRows ∧
      (is.foldl
        (fun (p : Matrix × Matrix) i =>
          (sort_matrix p.1 (p.1.rowPointers.getD i 0)
            (usub64 (p.1.rowPointers.getD (i + 1) 0) 1),
           sort_matrix p.2 (p.2.rowPointers.getD i 0)
            (usub64 (p.2.rowPointers.getD (i + 1) 0) 1)))
        p).2.noCols = p.2.noCols ∧
      (is.foldl
        (fun (p : Matrix × Matrix) i =>
          (sort_matrix p.1 (p.1.rowPointers.getD i 0)
            (usub64 (p.1.rowPointers.getD (i + 1) 0) 1),
           sort_matrix p.2 (p.2.rowPointers.getD i 0)
            (usub64 (p.2.rowPointers.getD (i + 1) 0) 1)))
        p).2.rowPointers = p.2.rowPointers ∧
      ((is.foldl
        (fun (p : Matrix × Matrix) i =>
          (sort_matrix p.1 (p.1.rowPointers.getD i 0)
            (usub64 (p.1.rowPointers.getD (i + 1) 0) 1),
           sort_matrix p.2 (p.2.rowPointers.getD i 0)
            (usub64 (p.2.rowPointers.getD (i + 1) 0) 1)))
        p).2.colIndices.zip
        (is.foldl
          (fun (p : Matrix × Matrix) i =>
            (sort_matrix p.1 (p.1.rowPointers.getD i 0)
              (usub64 (p.1.rowPointers.getD (i + 1) 0) 1),
             sort_matrix p.2 (p.2.rowPointers.getD i 0)
              (usub64 (p.2.rowPointers.getD (i + 1) 0) 1)))
          p).2.values).Perm (p.2.colIndices.zip p.2.values) := by
  intro is
  induction is with
  | nil =>
    intro p _ _
    exact ⟨rfl, rfl, rfl, List.Perm.refl _, rfl, rfl, rfl, List.Perm.refl _⟩
  | cons i is ih =>
    intro p ha hb
    simp only [List.foldl_cons]
    obtain ⟨a1, a2, a3, a4, a5, a6⟩ := sort_matrix_facts p.1
      (p.1.rowPointers.getD i 0) (usub64 (p.1.rowPointers.getD (i + 1) 0) 1) ha
    obtain ⟨b1, b2, b3, b4, b5, b6⟩ := sort_matrix_facts p.2
      (p.2.rowPointers.getD i 0) (usub64 (p.2.rowPointers.getD (i + 1) 0) 1) hb
    obtain ⟨c1, c2, c3, c4, c5, c6, c7, c8⟩ := ih
      (sort_matrix p.1 (p.1.rowPointers.getD i 0)
        (usub64 (p.1.rowPointers.getD (i + 1) 0) 1),
       sort_matrix p.2 (p.2.rowPointers.getD i 0)
        (usub64 (p.2.rowPointers.getD (i + 1) 0) 1))
      (by simp only; omega) (by simp only; omega)
    refine ⟨c1.trans a1, c2.trans a2, c3.trans a3, c4.trans a4,
      c5.trans b1, c6.trans b2, c7.trans b3, c8.trans b4⟩

/-- C9 fails on the code: `equals` sorts its arguments' own arrays in
place, not copies.  On the pair `unsortedM` (row stored as columns
`[1,0]`) and `sortedM` the checker reports equality, but afterwards the
first argument's `values` and `colIndices` arrays hold different
contents than before the call. -/
theorem C9_equals_mutates_argument_arrays :
    (equals unsortedM sortedM).1 = true ∧
    (equals unsortedM sortedM).2.1.values ≠ unsortedM.values ∧
    (equals unsortedM sortedM).2.1.colIndices ≠ unsortedM.colIndices ∧
    (equals unsortedM sortedM).2.1 ≠ unsortedM := by
  refine ⟨?_, ?_, ?_, ?_⟩
  · with_unfolding_all decide
  · with_unfolding_all decide
  · with_unfolding_all decide
  · with_unfolding_all decide

/-- C9, amended: the equality checker sorts each argument matrix's own
arrays in place (no local copies), so after a call to `equals` on
matrices whose `colIndices` and `values` have matching lengths, each
argument's dimensions and `rowPointers` are unchanged and its
`(colIndices, values)` pair list is a permutation of what it was before
the call — the entries are only reordered, never altered or lost. -/
theorem C9_equals_permutes_arrays_in_place (a b : Matrix)
    (ha : a.colIndices.length = a.values.length)
    (hb : b.colIndices.length = b.values.length) :
    (equals a b).2.1.noRows = a.noRows ∧
    (equals a b).2.1.noCols = a.noCols ∧
    (equals a b).2.1.rowPointers = a.rowPointers ∧
    ((equals a b).2.1.colIndices.zip (equals a b).2.1.values).Perm
      (a.colIndices.zip a.values) ∧
    (equals a b).2.2.noRows = b.noRows ∧
    (equals a b).2.2.noCols = b.noCols ∧
    (equals a b).2.2.rowPointers = b.rowPointers ∧
    ((equals a b).2.2.colIndices.zip (equals a b).2.2.values).Perm
      (b.colIndices.zip b.values) := by
  unfold equals
  split
  · exact ⟨rfl, rfl, rfl, List.Perm.refl _, rfl, rfl, rfl, List.Perm.refl _⟩
  · exact equals_fold_facts (List.range (a.rowPointers.length - 1)) (a, b)
      ha hb

/-- Witness for the amended C9 at a concrete pair. -/
theorem C9_equals_permutes_arrays_in_place_witness :
    ((equals unsortedM sortedM).2.1.colIndices.zip
      (equals unsortedM sortedM).2.1.values).Perm
      (unsortedM.colIndices.zip unsortedM.values) :=
  (C9_equals_permutes_arrays_in_place unsortedM sortedM (by decide)
    (by decide)).2.2.2.1

/-- C3: on the spec's concrete scenario (A = 2×3 with rows
{0:1, 1:2} and {2:3}, B = 3×2 with rows {1:4}, {}, {0:5}) every one of
the six kernels — the V0 dispatcher at any processor count, the dense
reference V1, scalar Gustavson V2, both SIMD variants (V4 with and
without AVX support), and size-predicted V5 — returns exactly the 2×2
product `{values=[4,15], colIndices=[1,0], rowPointers=[0,1,2]}`
(literal equality, hence in particular equality up to per-row column
ordering). -/
theorem C3_concrete_scenario :
    matr_mult_csr_V1 exampleA exampleB = .ok exampleProduct ∧
    matr_mult_csr_V2 exampleA exampleB = .ok exampleProduct ∧
    matr_mult_csr_V3 exampleA exampleB = .ok exampleProduct ∧
    (∀ avx, matr_mult_csr_V4 avx exampleA exampleB = .ok exampleProduct) ∧
    matr_mult_csr_V5 exampleA exampleB = .ok exampleProduct ∧
    (∀ available_threads,
      matr_mult_csr available_threads exampleA exampleB = .ok exampleProduct) := by
  refine ⟨?_, ?_, ?_, ?_, ?_, ?_⟩
  · with_unfolding_all rfl
  · with_unfolding_all rfl
  · with_unfolding_all rfl
  · intro avx
    cases avx
    · with_unfolding_all rfl
    · with_unfolding_all rfl
  · with_unfolding_all rfl
  · intro available_threads
    with_unfolding_all rfl

/-- C1 fails on the code: on the valid, multiplicable pair
`cancelA`, `cancelB` (whose product row has an exact cancellation at
column 0 between two insertions), V1 and V2 return the correct product
`{values=[2,7], colIndices=[1,2]}`, but V5 returns `{values=[7],
colIndices=[2]}` — the freed slot 0 is reused for the column-2 term and
`valuesEndPtr` moves backwards past the live column-1 entry — and the
order-independent equality checker reports the two results unequal. -/
theorem C1_kernels_disagree_on_cancellation :
    ValidCSR cancelA ∧ ValidCSR cancelB ∧
    can_multiply cancelA cancelB = true ∧
    matr_mult_csr_V1 cancelA cancelB = .ok cancelProduct ∧
    matr_mult_csr_V2 cancelA cancelB = .ok cancelProduct ∧
    matr_mult_csr_V5 cancelA cancelB = .ok cancelV5Result ∧
    cancelV5Result ≠ cancelProduct ∧
    (equals cancelProduct cancelV5Result).1 = false := by
  refine ⟨by decide, by decide, by decide, ?_, ?_, ?_, by decide, ?_⟩
  · with_unfolding_all rfl
  · with_unfolding_all rfl
  · with_unfolding_all rfl
  · with_unfolding_all decide

/-- C8: with algorithm identifier 0, when `nnz(A) < 10000` or
`rowCount(A) < MIN_THREADS` (= 2), the dispatcher performs exactly the
size-predicted single-threaded kernel V5 — same result and same error
behaviour — regardless of the available processor count. -/
theorem C8_dispatcher_small_input_fallback (available_threads : Nat)
    (a b : Matrix) (h : a.values.length < 10000 ∨ a.noRows < MIN_THREADS) :
    matr_mult_csr available_threads a b = matr_mult_csr_V5 a b := by
  unfold matr_mult_csr
  rw [if_pos h]

/-- Witness for C8 at a concrete input. -/
theorem C8_dispatcher_small_input_fallback_witness :
    matr_mult_csr 8 exampleA exampleB = matr_mult_csr_V5 exampleA exampleB :=
  C8_dispatcher_small_input_fallback 8 exampleA exampleB (Or.inl (by decide))

/-- C4: `can_multiply` holds iff the inner dimensions agree and both
matrices have at least one row and one column; when it fails, every
multiplication entry point (V0 at any processor count, V1, V2, V3, V4
with or without AVX, V5) signals dimension incompatibility, and in the
initialization-phase error model every entry point returns with the
caller's result handle untouched (nothing allocated, no field
written). -/
theorem C4_incompatible_dimensions_rejected (a b : Matrix) :
    (can_multiply a b = true ↔
      a.noCols = b.noRows ∧ 1 ≤ a.noRows ∧ 1 ≤ a.noCols ∧
        1 ≤ b.noRows ∧ 1 ≤ b.noCols) ∧
    (can_multiply a b = false →
      matr_mult_csr_V1 a b = .error MATRIX_DIMENSION_ERROR ∧
      matr_mult_csr_V2 a b = .error MATRIX_DIMENSION_ERROR ∧
      matr_mult_csr_V3 a b = .error MATRIX_DIMENSION_ERROR ∧
      (∀ avx, matr_mult_csr_V4 avx a b = .error MATRIX_DIMENSION_ERROR) ∧
      matr_mult_csr_V5 a b = .error MATRIX_DIMENSION_ERROR ∧
      (∀ available_threads,
        matr_mult_csr available_threads a b = .error MATRIX_DIMENSION_ERROR) ∧
      (∀ o1 o2 o3 o4 avx available_threads h,
        (matr_mult_csr_V1_err o1 o2 o3 o4 a b h).2 = h ∧
        (matr_mult_csr_V2_err o2 o3 o4 a b h).2 = h ∧
        (matr_mult_csr_V3_err o2 o3 o4 a b h).2 = h ∧
        (matr_mult_csr_V4_err avx o2 o3 o4 a b h).2 = h ∧
        (matr_mult_csr_V5_err o1 o2 o3 o4 a b h).2 = h ∧
        (matr_mult_csr_err o1 o2 o3 o4 available_threads a b h).2 = h)) := by
  constructor
  · simp only [can_multiply, Bool.and_eq_true, beq_iff_eq, decide_eq_true_eq]
    tauto
  · intro h
    refine ⟨?_, ?_, ?_, ?_, ?_, ?_, ?_⟩
    · simp [matr_mult_csr_V1, h]
    · simp [matr_mult_csr_V2, h]
    · simp [matr_mult_csr_V3, h]
    · intro avx
      cases avx
      · simp [matr_mult_csr_V4, matr_mult_csr_V1, h]
      · simp [matr_mult_csr_V4, h]
    · simp [matr_mult_csr_V5, h]
    · intro available_threads
      unfold matr_mult_csr
      split
      · simp [matr_mult_csr_V5, h]
      · simp [h]
    · intro o1 o2 o3 o4 avx available_threads hd
      refine ⟨?_, ?_, ?_, ?_, ?_, ?_⟩
      · simp [matr_mult_csr_V1_err, h]
      · simp [matr_mult_csr_V2_err, h]
      · simp [matr_mult_csr_V3_err, h]
      · cases avx
        · simp [matr_mult_csr_V4_err, matr_mult_csr_V1_err, h]
        · simp [matr_mult_csr_V4_err, h]
      · simp [matr_mult_csr_V5_err, h]
      · unfold matr_mult_csr_err
        split
        · simp [matr_mult_csr_V5_err, h]
        · simp [h]

/-- Witness for C4 at the spec's concrete incompatible pair: a 2×3
matrix times a 2×2 matrix. -/
theorem C4_incompatible_dimensions_rejected_witness :
    matr_mult_csr_V2 exampleA ⟨2, 2, [1], [0], [0, 1, 1]⟩ =
      .error MATRIX_DIMENSION_ERROR :=
  ((C4_incompatible_dimensions_rejected exampleA
    ⟨2, 2, [1], [0], [0, 1, 1]⟩).2 (by decide)).2.1

/-- C10: starting from the caller's all-`NULL` result handle
(`generator.c` nulls the three array fields before every kernel call),
whenever an entry point signals an error in the initialization-phase
error model — dimension incompatibility, an allocation failure inside
`init_empty_csr_matrix` or `predict_values_dimension`, or a conversion
or allocation failure in the dense V1 path — the returned handle still
has all three array fields `NULL`, so a blanket release is safe. -/
theorem C10_failed_init_leaves_null_arrays
    (o1 o2 o3 o4 avx : Bool) (available_threads : Nat) (a b : Matrix) :
    ((matr_mult_csr_V1_err o1 o2 o3 o4 a b nullHandle).1 ≠ 0 →
      (matr_mult_csr_V1_err o1 o2 o3 o4 a b nullHandle).2 = nullHandle) ∧
    ((matr_mult_csr_V2_err o2 o3 o4 a b nullHandle).1 ≠ 0 →
      (matr_mult_csr_V2_err o2 o3 o4 a b nullHandle).2 = nullHandle) ∧
    ((matr_mult_csr_V3_err o2 o3 o4 a b nullHandle).1 ≠ 0 →
      (matr_mult_csr_V3_err o2 o3 o4 a b nullHandle).2 = nullHandle) ∧
    ((matr_mult_csr_V4_err avx o2 o3 o4 a b nullHandle).1 ≠ 0 →
      (matr_mult_csr_V4_err avx o2 o3 o4 a b nullHandle).2 = nullHandle) ∧
    ((matr_mult_csr_V5_err o1 o2 o3 o4 a b nullHandle).1 ≠ 0 →
      (matr_mult_csr_V5_err o1 o2 o3 o4 a b nullHandle).2 = nullHandle) ∧
    ((matr_mult_csr_err o1 o2 o3 o4 available_threads a b nullHandle).1 ≠ 0 →
      (matr_mult_csr_err o1 o2 o3 o4 available_threads a b nullHandle).2 =
        nullHandle) := by
  refine ⟨?_, ?_, ?_, ?_, ?_, ?_⟩
  · unfold matr_mult_csr_V1_err
    repeat' split
    all_goals first
      | (intro hc; rfl)
      | (intro hc; exact absurd rfl hc)
  · unfold matr_mult_csr_V2_err init_empty_csr_matrix_err
    repeat' split
    all_goals first
      | (intro hc; rfl)
      | (intro hc; exact absurd rfl hc)
  · unfold matr_mult_csr_V3_err init_empty_csr_matrix_err
    repeat' split
    all_goals first
      | (intro hc; rfl)
      | (intro hc; exact absurd rfl hc)
  · unfold matr_mult_csr_V4_err matr_mult_csr_V1_err init_empty_csr_matrix_err
    repeat' split
    all_goals first
      | (intro hc; rfl)
      | (intro hc; exact absurd rfl hc)
  · unfold matr_mult_csr_V5_err init_empty_csr_matrix_err
    repeat' split
    all_goals first
      | (intro hc; rfl)
      | (intro hc; exact absurd rfl hc)
  · unfold matr_mult_csr_err matr_mult_csr_V5_err init_empty_csr_matrix_err
    repeat' split
    all_goals first
      | (intro hc; rfl)
      | (intro hc; exact absurd rfl hc)

/-- Witness for C10: the V5 entry point with every allocation failing on
a valid multiplicable pair reports the heap error with the handle still
all-`NULL`. -/
theorem C10_failed_init_leaves_null_arrays_witness :
    (matr_mult_csr_V5_err false false false false exampleA exampleB
      nullHandle).2 = nullHandle :=
  (C10_failed_init_leaves_null_arrays false false false false true 1 exampleA
    exampleB).2.2.2.2.1 (by decide)


theorem valid_rp_mono (m : Matrix) (hv : ValidCSR m) :
    ∀ i j, i ≤ j → j < m.rowPointers.length →
      m.rowPointers.getD i 0 ≤ m.rowPointers.getD j 0 := by
  obtain ⟨-, -, -, -, -, -, h7, -⟩ := hv
  exact rp_chain m.rowPointers (fun i hi => (h7 i (by omega)).1)

theorem valid_rp_le_len (m : Matrix) (hv : ValidCSR m) :
    ∀ j, j < m.rowPointers.length →
      m.rowPointers.getD j 0 ≤ m.values.length := by
  intro j hj
  have h5 := hv.2.2.2.2.1
  have h8 := hv.2.2.2.2.2.2.2
  calc m.rowPointers.getD j 0 ≤ m.rowPointers.getD m.noRows 0 :=
        valid_rp_mono m hv j m.noRows (by omega) (by omega)
    _ = m.values.length := h8

theorem rowOfIndex_eq (a : Matrix) (hv : ValidCSR a) (r iA : Nat)
    (hr : r < a.noRows) (h1 : a.rowPointers.getD r 0 ≤ iA)
    (h2 : iA < a.rowPointers.getD (r + 1) 0) :
    rowOfIndex a iA = r := by
  have h5 := hv.2.2.2.2.1
  unfold rowOfIndex
  have hsplit : List.range a.noRows =
      List.range r ++ (List.range (a.noRows - r)).map (r + ·) := by
    rw [← List.range_add]
    congr 1
    omega
  rw [hsplit, List.filter_append]
  have hfirst : (List.range r).filter
      (fun j => decide (a.rowPointers.getD (j + 1) 0 ≤ iA)) =
      List.range r := by
    apply List.filter_eq_self.mpr
    intro j hj
    rw [decide_eq_true_eq]
    have hjr : j < r := List.mem_range.mp hj
    calc a.rowPointers.getD (j + 1) 0 ≤ a.rowPointers.getD r 0 :=
          valid_rp_mono a hv (j + 1) r (by omega) (by omega)
      _ ≤ iA := h1
  have hsecond : ((List.range (a.noRows - r)).map (r + ·)).filter
      (fun j => decide (a.rowPointers.getD (j + 1) 0 ≤ iA)) = [] := by
    apply List.filter_eq_nil.mpr
    intro j hj
    obtain ⟨t, ht, rfl⟩ := List.mem_map.mp hj
    have htlt : t < a.noRows - r := List.mem_range.mp ht
    rw [decide_eq_true_eq]
    push_neg
    calc iA < a.rowPointers.getD (r + 1) 0 := h2
      _ ≤ a.rowPointers.getD (r + t + 1) 0 :=
          valid_rp_mono a hv (r + 1) (r + t + 1) (by omega) (by omega)
  rw [hfirst, hsecond, List.append_nil, List.length_range]

theorem cleanStep_bound (origV : List ℚ) (s : CleanState)
    (h : CleanBoundInv origV s) : CleanBoundInv origV (cleanStep s) := by
  obtain ⟨hlen, hnz, hframe⟩ := h
  have hnzb : s.nz ≤ s.row_beg :=
    le_trans hnz ((Finset.card_filter_le _ _).trans_eq (Finset.card_range _))
  unfold cleanStep
  by_cases hc : s.values.getD s.row_beg 0 ≠ 0
  · rw [if_pos hc]
    have horig : origV.getD s.row_beg 0 ≠ 0 := by
      rw [← hframe s.row_beg (le_refl _)]
      exact hc
    refine ⟨by simpa using hlen, ?_, ?_⟩
    · have hins : (Finset.range (s.row_beg + 1)).filter
          (fun p => origV.getD p 0 ≠ 0) =
          insert s.row_beg ((Finset.range s.row_beg).filter
            (fun p => origV.getD p 0 ≠ 0)) := by
        rw [Finset.range_succ, Finset.filter_insert, if_pos horig]
      rw [hins, Finset.card_insert_of_not_mem (by simp)]
      simpa using Nat.add_le_add_right hnz 1
    · intro q hq
      dsimp only at hq ⊢
      have hne : s.nz ≠ q := by omega
      rw [List.getD_eq_getElem?_getD, List.getElem?_set_ne hne,
        ← List.getD_eq_getElem?_getD]
      exact hframe q (by omega)
  · rw [if_neg hc]
    refine ⟨hlen, ?_, ?_⟩
    · dsimp only
      exact le_trans hnz (Finset.card_le_card
        (Finset.filter_subset_filter _ (Finset.range_subset.mpr (by omega))))
    · intro q hq
      dsimp only at hq ⊢
      exact hframe q (by omega)

theorem cleanSteps_bound (origV : List ℚ) :
    ∀ (is : List Nat) (s : CleanState), CleanBoundInv origV s →
      CleanBoundInv origV (is.foldl (fun s _ => cleanStep s) s) := by
  intro is
  induction is with
  | nil => intro s h; exact h
  | cons i is ih =>
    intro s h
    exact ih (cleanStep s) (cleanStep_bound origV s h)

theorem cleanRow_bound (origV : List ℚ) (s : CleanState) (row : Nat)
    (h : CleanBoundInv origV s) : CleanBoundInv origV (cleanRow s row) := by
  unfold cleanRow
  exact cleanSteps_bound origV _ s h

theorem cleanRows_bound (origV : List ℚ) :
    ∀ (is : List Nat) (s : CleanState), CleanBoundInv origV s →
      CleanBoundInv origV (is.foldl cleanRow s) := by
  intro is
  induction is with
  | nil => intro s h; exact h
  | cons i is ih =>
    intro s h
    exact ih (cleanRow s i) (cleanRow_bound origV s i h)

theorem clean_nz_le (m : Matrix) :
    (clean_up_matrix_arrays m).2 ≤
      ((Finset.range m.values.length).filter
        (fun p => m.values.getD p 0 ≠ 0)).card ∧
    (clean_up_matrix_arrays m).1.values.length = m.values.length := by
  have hinv : CleanBoundInv m.values
      (⟨0, 0, m.rowPointers.getD 0 0, m.values, m.colIndices,
        m.rowPointers⟩ : CleanState) :=
    ⟨rfl, by simp, fun q _ => rfl⟩
  have hfin := cleanRows_bound m.values (cRange 1 m.rowPointers.length) _ hinv
  obtain ⟨hlen, hnz, -⟩ := hfin
  constructor
  · refine le_trans hnz (Finset.card_le_card ?_)
    intro p hp
    obtain ⟨hpr, hpnz⟩ := Finset.mem_filter.mp hp
    refine Finset.mem_filter.mpr ⟨Finset.mem_range.mpr ?_, hpnz⟩
    by_contra hge
    exact hpnz (List.getD_eq_default _ _ (by omega))
  · exact hlen

theorem clean_len_le (m : Matrix) :
    (clean_up_csr m).values.length ≤
      ((Finset.range m.values.length).filter
        (fun p => m.values.getD p 0 ≠ 0)).card ∧
    (clean_up_csr m).values.length ≤ m.values.length := by
  obtain ⟨hnz, hlen⟩ := clean_nz_le m
  unfold clean_up_csr
  simp only [List.length_take]
  omega


theorem mem_macPairs (a b : Matrix) (iA iB : Nat) :
    (iA, iB) ∈ macPairs a b ↔
      iA < a.values.length ∧ iB < b.values.length ∧
      b.rowPointers.getD (a.colIndices.getD iA 0) 0 ≤ iB ∧
      iB < b.rowPointers.getD (a.colIndices.getD iA 0 + 1) 0 := by
  unfold macPairs
  simp only [Finset.mem_filter, Finset.mem_product, Finset.mem_range]
  tauto

theorem card_macPairs (a b : Matrix) (hvb : ValidCSR b)
    (hcols : ∀ iA, iA < a.values.length →
      a.colIndices.getD iA 0 < b.noRows) :
    (macPairs a b).card =
      ∑ iA ∈ Finset.range a.values.length,
        rowLen b (a.colIndices.getD iA 0) := by
  unfold macPairs
  rw [Finset.card_filter, Finset.sum_product]
  apply Finset.sum_congr rfl
  intro iA hiA
  have hc : a.colIndices.getD iA 0 < b.noRows :=
    hcols iA (Finset.mem_range.mp hiA)
  have h5 := hvb.2.2.2.2.1
  have hhi : b.rowPointers.getD (a.colIndices.getD iA 0 + 1) 0 ≤
      b.values.length :=
    valid_rp_le_len b hvb (a.colIndices.getD iA 0 + 1) (by omega)
  have hsum : ∑ iB ∈ Finset.range b.values.length,
      (if b.rowPointers.getD (a.colIndices.getD iA 0) 0 ≤ iB ∧
          iB < b.rowPointers.getD (a.colIndices.getD iA 0 + 1) 0
        then 1 else 0) =
      ((Finset.range b.values.length).filter
        (fun iB => b.rowPointers.getD (a.colIndices.getD iA 0) 0 ≤ iB ∧
          iB < b.rowPointers.getD (a.colIndices.getD iA 0 + 1) 0)).card := by
    rw [Finset.card_filter]
  rw [hsum]
  have hfe : (Finset.range b.values.length).filter
      (fun iB => b.rowPointers.getD (a.colIndices.getD iA 0) 0 ≤ iB ∧
        iB < b.rowPointers.getD (a.colIndices.getD iA 0 + 1) 0) =
      Finset.Ico (b.rowPointers.getD (a.colIndices.getD iA 0) 0)
        (b.rowPointers.getD (a.colIndices.getD iA 0 + 1) 0) := by
    apply Finset.ext
    intro x
    simp only [Finset.mem_filter, Finset.mem_range, Finset.mem_Ico]
    constructor
    · tauto
    · intro hx
      exact ⟨by omega, hx⟩
  rw [hfe, Nat.card_Ico]
  rfl

theorem sum_range_getD (g : Nat → Nat) (cols : List Nat) :
    ∑ iA ∈ Finset.range cols.length, g (cols.getD iA 0) =
      (cols.map g).sum := by
  induction cols with
  | nil => simp
  | cons x xs ih =>
    rw [List.length_cons, Finset.sum_range_succ']
    simp only [List.getD_cons_succ, List.getD_cons_zero, List.map_cons,
      List.sum_cons]
    rw [ih]
    omega

theorem map_sum_count (g : Nat → Nat) (cols : List Nat) (nCols : Nat)
    (hlt : ∀ x ∈ cols, x < nCols) :
    (cols.map g).sum = ∑ c ∈ Finset.range nCols, cols.count c * g c := by
  induction cols with
  | nil => simp
  | cons x xs ih =>
    have hx : x < nCols := hlt x (List.mem_cons_self x xs)
    have ihx := ih (fun y hy => hlt y (List.mem_cons_of_mem x hy))
    simp only [List.map_cons, List.sum_cons]
    rw [ihx]
    have hcount : ∀ c, (x :: xs).count c = xs.count c + if x = c then 1 else 0 := by
      intro c
      rw [List.count_cons]
      congr 1
      by_cases h : x = c
      · rw [if_pos h, if_pos (beq_iff_eq.mpr h)]
      · rw [if_neg h, if_neg (by simpa using h)]
    have : ∑ c ∈ Finset.range nCols, (x :: xs).count c * g c =
        ∑ c ∈ Finset.range nCols,
          (xs.count c * g c + (if x = c then g c else 0)) := by
      apply Finset.sum_congr rfl
      intro c _
      rw [hcount c]
      by_cases h : x = c
      · rw [if_pos h, if_pos h]
        ring
      · rw [if_neg h, if_neg h]
        ring
    rw [this, Finset.sum_add_distrib, Finset.sum_ite_eq _ x g]
    rw [if_pos (Finset.mem_range.mpr hx)]
    omega

theorem card_slots_le_macPairs (a b : Matrix) (F : Finset Nat)
    (hF : ∀ p ∈ F, TargetSlot a b p) : F.card ≤ (macPairs a b).card := by
  classical
  apply Finset.card_le_card_of_injOn
    (fun p => if h : TargetSlot a b p
      then (h.choose, h.choose_spec.choose) else (0, 0))
  · intro p hp
    have h := hF p hp
    simp only [dif_pos h]
    exact h.choose_spec.choose_spec.1
  · intro p1 hp1 p2 hp2 heq
    have h1 := hF p1 (by simpa using hp1)
    have h2 := hF p2 (by simpa using hp2)
    simp only [dif_pos h1, dif_pos h2, Prod.mk.injEq] at heq
    have e1 := h1.choose_spec.choose_spec.2
    have e2 := h2.choose_spec.choose_spec.2
    have hpair : ((h1.choose, h1.choose_spec.choose) : Nat × Nat) =
        (h2.choose, h2.choose_spec.choose) := Prod.ext heq.1 heq.2
    have hcomp : rowOfIndex a h1.choose * b.noCols +
        b.colIndices.getD h1.choose_spec.choose 0 =
        rowOfIndex a h2.choose * b.noCols +
        b.colIndices.getD h2.choose_spec.choose 0 :=
      congrArg (fun xy : Nat × Nat =>
        rowOfIndex a xy.1 * b.noCols + b.colIndices.getD xy.2 0) hpair
    exact e1.trans (hcomp.trans e2.symm)

theorem card_cells_le_macPairs (a b : Matrix) (F : Finset (Nat × Nat))
    (hF : ∀ rc ∈ F, TargetCell a b rc) : F.card ≤ (macPairs a b).card := by
  classical
  apply Finset.card_le_card_of_injOn
    (fun rc => if h : TargetCell a b rc
      then (h.choose, h.choose_spec.choose) else (0, 0))
  · intro rc hrc
    have h := hF rc hrc
    simp only [dif_pos h]
    exact h.choose_spec.choose_spec.1
  · intro rc1 hrc1 rc2 hrc2 heq
    have h1 := hF rc1 (by simpa using hrc1)
    have h2 := hF rc2 (by simpa using hrc2)
    simp only [dif_pos h1, dif_pos h2, Prod.mk.injEq] at heq
    have e11 := h1.choose_spec.choose_spec.2.1
    have e12 := h1.choose_spec.choose_spec.2.2
    have e21 := h2.choose_spec.choose_spec.2.1
    have e22 := h2.choose_spec.choose_spec.2.2
    have hpair : ((h1.choose, h1.choose_spec.choose) : Nat × Nat) =
        (h2.choose, h2.choose_spec.choose) := Prod.ext heq.1 heq.2
    have hcomp2 : ((rowOfIndex a h1.choose,
        b.colIndices.getD h1.choose_spec.choose 0) : Nat × Nat) =
        (rowOfIndex a h2.choose,
        b.colIndices.getD h2.choose_spec.choose 0) :=
      congrArg (fun xy : Nat × Nat =>
        (rowOfIndex a xy.1, b.colIndices.getD xy.2 0)) hpair
    exact (Prod.ext e11 e12).trans (hcomp2.trans (Prod.ext e21 e22).symm)


theorem foldl_pres {β : Type} (P : Matrix → Prop) (f : Matrix → β → Matrix)
    (pre : β → Prop)
    (hstep : ∀ r x, pre x → P r → P (f r x)) :
    ∀ (is : List β), (∀ x ∈ is, pre x) → ∀ r, P r → P (is.foldl f r) := by
  intro is
  induction is with
  | nil => intro _ r h; exact h
  | cons x xs ih =>
    intro hpre r h
    exact ih (fun y hy => hpre y (List.mem_cons_of_mem x hy)) (f r x)
      (hstep r x (hpre x (List.mem_cons_self x xs)) h)

theorem mem_cRange {x s e : Nat} (h : x ∈ cRange s e) : s ≤ x ∧ x < e := by
  unfold cRange at h
  rw [List.mem_range'_1] at h
  omega

theorem getD_replicate_zero (n p : Nat) :
    (List.replicate n (0 : ℚ)).getD p 0 = 0 := by
  rcases Nat.lt_or_ge p n with h | h
  · rw [List.getD_eq_getElem _ _ (by simpa using h), List.getElem_replicate]
  · exact List.getD_eq_default _ _ (by simpa using h)

theorem targetSlot_of_op (a b : Matrix) (hva : ValidCSR a) (hvb : ValidCSR b)
    (hab : a.noCols = b.noRows) (rowA indexA indexB : Nat)
    (hrow : rowA < a.noRows)
    (hA1 : a.rowPointers.getD rowA 0 ≤ indexA)
    (hA2 : indexA < a.rowPointers.getD (rowA + 1) 0)
    (hB1 : b.rowPointers.getD (a.colIndices.getD indexA 0) 0 ≤ indexB)
    (hB2 : indexB < b.rowPointers.getD (a.colIndices.getD indexA 0 + 1) 0) :
    TargetSlot a b (rowA * b.noCols + b.colIndices.getD indexB 0) := by
  have h5a := hva.2.2.2.2.1
  have hiA : indexA < a.values.length := by
    have := valid_rp_le_len a hva (rowA + 1) (by omega)
    omega
  have hcolA : a.colIndices.getD indexA 0 < b.noRows := by
    have h3 := hva.2.2.1
    have h4 := hva.2.2.2.1
    have hmem : a.colIndices.getD indexA 0 ∈ a.colIndices := by
      rw [List.getD_eq_getElem a.colIndices 0 (by omega)]
      exact List.getElem_mem _
    have := h4 _ hmem
    omega
  have h5b := hvb.2.2.2.2.1
  have hiB : indexB < b.values.length := by
    have := valid_rp_le_len b hvb (a.colIndices.getD indexA 0 + 1) (by omega)
    omega
  refine ⟨indexA, indexB, ?_, ?_⟩
  · rw [mem_macPairs]
    exact ⟨hiA, hiB, hB1, hB2⟩
  · rw [rowOfIndex_eq a hva rowA indexA hrow hA1 hA2]

theorem denseInv_set (a b : Matrix) (r : Matrix) (hInv : DenseInv a b r)
    (q : Nat) (hq : TargetSlot a b q) (v : ℚ) (ci : List Nat) :
    DenseInv a b { r with
      values := r.values.set q (r.values.getD q 0 + v)
      colIndices := ci } := by
  obtain ⟨hcols, hlen, hmem⟩ := hInv
  refine ⟨hcols, ?_, ?_⟩
  · dsimp only
    rw [List.length_set]
    exact hlen
  · intro p hp
    dsimp only at hp
    by_cases hpq : p = q
    · subst hpq
      exact hq
    · rw [List.getD_eq_getElem?_getD,
        List.getElem?_set_ne (fun h => hpq h.symm),
        ← List.getD_eq_getElem?_getD] at hp
      exact hmem p hp

theorem gustavsonStep_inv (a b : Matrix) (hva : ValidCSR a) (hvb : ValidCSR b)
    (hab : a.noCols = b.noRows) (valueA : ℚ) (rowA : Nat) (r : Matrix)
    (indexA indexB : Nat) (hrow : rowA < a.noRows)
    (hA1 : a.rowPointers.getD rowA 0 ≤ indexA)
    (hA2 : indexA < a.rowPointers.getD (rowA + 1) 0)
    (hB1 : b.rowPointers.getD (a.colIndices.getD indexA 0) 0 ≤ indexB)
    (hB2 : indexB < b.rowPointers.getD (a.colIndices.getD indexA 0 + 1) 0)
    (hInv : DenseInv a b r) :
    DenseInv a b (gustavsonStep b valueA rowA r indexB) := by
  have hcols := hInv.1
  have ht : TargetSlot a b (rowA * r.noCols + b.colIndices.getD indexB 0) := by
    rw [hcols]
    exact targetSlot_of_op a b hva hvb hab rowA indexA indexB hrow hA1 hA2
      hB1 hB2
  unfold gustavsonStep
  exact denseInv_set a b r hInv _ ht _ _

theorem gustavsonRow_inv (a b : Matrix) (hva : ValidCSR a) (hvb : ValidCSR b)
    (hab : a.noCols = b.noRows) (r : Matrix) (rowA : Nat)
    (hrow : rowA < a.noRows) (hInv : DenseInv a b r) :
    DenseInv a b (gustavsonRow a b r rowA) := by
  unfold gustavsonRow
  have hfold : DenseInv a b
      ((cRange (a.rowPointers.getD rowA 0) (a.rowPointers.getD (rowA + 1) 0)).foldl
        (fun r indexA =>
          (cRange (b.rowPointers.getD (a.colIndices.getD indexA 0) 0)
            (b.rowPointers.getD (a.colIndices.getD indexA 0 + 1) 0)).foldl
            (gustavsonStep b (a.values.getD indexA 0) rowA) r)
        r) := by
    apply foldl_pres (DenseInv a b) _
      (fun indexA => a.rowPointers.getD rowA 0 ≤ indexA ∧
        indexA < a.rowPointers.getD (rowA + 1) 0)
      ?_ _ (fun x hx => mem_cRange hx) r hInv
    intro r1 indexA hpreA hP
    apply foldl_pres (DenseInv a b) _
      (fun indexB =>
        b.rowPointers.getD (a.colIndices.getD indexA 0) 0 ≤ indexB ∧
        indexB < b.rowPointers.getD (a.colIndices.getD indexA 0 + 1) 0)
      ?_ _ (fun x hx => mem_cRange hx) r1 hP
    intro r2 indexB hpreB hP2
    exact gustavsonStep_inv a b hva hvb hab _ rowA r2 indexA indexB hrow
      hpreA.1 hpreA.2 hpreB.1 hpreB.2 hP2
  exact ⟨hfold.1, hfold.2.1, hfold.2.2⟩

theorem denseInv_init (a b : Matrix) :
    DenseInv a b (init_empty_csr_matrix a b false) := by
  refine ⟨rfl, by simp [init_empty_csr_matrix], ?_⟩
  intro p hp
  exact absurd (getD_replicate_zero _ p) hp

theorem denseInv_rp0 (a b : Matrix) (r : Matrix) (hInv : DenseInv a b r) :
    DenseInv a b { r with rowPointers := r.rowPointers.set 0 0 } :=
  ⟨hInv.1, hInv.2.1, hInv.2.2⟩

theorem multiply_V2_inv (a b : Matrix) (hva : ValidCSR a) (hvb : ValidCSR b)
    (hab : a.noCols = b.noRows) (r : Matrix) (hInv : DenseInv a b r) :
    DenseInv a b (multiply_V2 a b r) := by
  unfold multiply_V2
  apply foldl_pres (DenseInv a b) _ (fun rowA => rowA < a.noRows)
    ?_ _ (fun x hx => List.mem_range.mp hx) _ (denseInv_rp0 a b r hInv)
  intro r1 rowA hrow hP
  exact gustavsonRow_inv a b hva hvb hab r1 rowA hrow hP

theorem multiply_main_implementation_inv (a b : Matrix) (hva : ValidCSR a)
    (hvb : ValidCSR b) (hab : a.noCols = b.noRows) (r : Matrix)
    (s e : Nat) (he : e ≤ a.noRows) (hInv : DenseInv a b r) :
    DenseInv a b (multiply_main_implementation a b s e r) := by
  unfold multiply_main_implementation
  apply foldl_pres (DenseInv a b) _ (fun rowA => rowA < a.noRows)
    ?_ _ (fun x hx => by have := mem_cRange hx; omega) _
    (denseInv_rp0 a b r hInv)
  intro r1 rowA hrow hP
  exact gustavsonRow_inv a b hva hvb hab r1 rowA hrow hP


theorem indexA_lt (a : Matrix) (hva : ValidCSR a) (rowA indexA : Nat)
    (hrow : rowA < a.noRows)
    (hA2 : indexA < a.rowPointers.getD (rowA + 1) 0) :
    indexA < a.values.length := by
  have h5a := hva.2.2.2.2.1
  have := valid_rp_le_len a hva (rowA + 1) (by omega)
  omega

theorem colA_lt (a b : Matrix) (hva : ValidCSR a) (hab : a.noCols = b.noRows)
    (indexA : Nat) (hiA : indexA < a.values.length) :
    a.colIndices.getD indexA 0 < b.noRows := by
  have h3 := hva.2.2.1
  have h4 := hva.2.2.2.1
  have hmem : a.colIndices.getD indexA 0 ∈ a.colIndices := by
    rw [List.getD_eq_getElem a.colIndices 0 (by omega)]
    exact List.getElem_mem _
  have := h4 _ hmem
  omega

theorem simdScatter_inv (a b : Matrix) (hva : ValidCSR a) (hvb : ValidCSR b)
    (hab : a.noCols = b.noRows) (r : Matrix) (rowA indexA iB rvi rci : Nat)
    (p : ℚ) (hrvi : rvi = rowA * b.noCols) (hrow : rowA < a.noRows)
    (hA1 : a.rowPointers.getD rowA 0 ≤ indexA)
    (hA2 : indexA < a.rowPointers.getD (rowA + 1) 0)
    (hB1 : b.rowPointers.getD (a.colIndices.getD indexA 0) 0 ≤ iB)
    (hB2 : iB < b.rowPointers.getD (a.colIndices.getD indexA 0 + 1) 0)
    (hInv : DenseInv a b r) :
    DenseInv a b (simdScatter r rvi rci (b.colIndices.getD iB 0) p) := by
  subst hrvi
  unfold simdScatter
  exact denseInv_set a b r hInv _
    (targetSlot_of_op a b hva hvb hab rowA indexA iB hrow hA1 hA2 hB1 hB2) _ _

theorem v3Chunks_inv (a b : Matrix) (hva : ValidCSR a) (hvb : ValidCSR b)
    (hab : a.noCols = b.noRows) (valueA : ℚ) (rowA indexA rvi rci : Nat)
    (hrvi : rvi = rowA * b.noCols) (hrow : rowA < a.noRows)
    (hA1 : a.rowPointers.getD rowA 0 ≤ indexA)
    (hA2 : indexA < a.rowPointers.getD (rowA + 1) 0) :
    ∀ (fuel n iB : Nat) (r : Matrix), n ≤ fuel →
      b.rowPointers.getD (a.colIndices.getD indexA 0) 0 ≤ iB →
      iB + n ≤ b.rowPointers.getD (a.colIndices.getD indexA 0 + 1) 0 →
      DenseInv a b r →
      DenseInv a b (v3Chunks b valueA rvi rci n iB r).1 ∧
        iB ≤ (v3Chunks b valueA rvi rci n iB r).2 := by
  intro fuel
  induction fuel with
  | zero =>
    intro n iB r hn h1 h2 hInv
    have hn0 : n = 0 := by omega
    subst hn0
    exact ⟨hInv, le_refl iB⟩
  | succ fuel ih =>
    intro n iB r hn h1 h2 hInv
    rcases n with _ | _ | _ | _ | m
    · exact ⟨hInv, le_refl iB⟩
    · exact ⟨hInv, le_refl iB⟩
    · exact ⟨hInv, le_refl iB⟩
    · exact ⟨hInv, le_refl iB⟩
    · have s1 := simdScatter_inv a b hva hvb hab r rowA indexA iB rvi rci
        (b.values.getD iB 0 * valueA) hrvi hrow hA1 hA2 h1 (by omega) hInv
      have s2 := simdScatter_inv a b hva hvb hab _ rowA indexA (iB + 1) rvi
        rci (b.values.getD (iB + 1) 0 * valueA) hrvi hrow hA1 hA2 (by omega)
        (by omega) s1
      have s3 := simdScatter_inv a b hva hvb hab _ rowA indexA (iB + 2) rvi
        rci (b.values.getD (iB + 2) 0 * valueA) hrvi hrow hA1 hA2 (by omega)
        (by omega) s2
      have s4 := simdScatter_inv a b hva hvb hab _ rowA indexA (iB + 3) rvi
        rci (b.values.getD (iB + 3) 0 * valueA) hrvi hrow hA1 hA2 (by omega)
        (by omega) s3
      obtain ⟨hI, hle⟩ := ih m (iB + 4) _ (by omega) (by omega) (by omega) s4
      exact ⟨hI, le_trans (Nat.le_add_right iB 4) hle⟩

theorem v4Chunks_inv (a b : Matrix) (hva : ValidCSR a) (hvb : ValidCSR b)
    (hab : a.noCols = b.noRows) (valueA : ℚ) (rowA indexA rvi rci : Nat)
    (hrvi : rvi = rowA * b.noCols) (hrow : rowA < a.noRows)
    (hA1 : a.rowPointers.getD rowA 0 ≤ indexA)
    (hA2 : indexA < a.rowPointers.getD (rowA + 1) 0) :
    ∀ (fuel n iB : Nat) (r : Matrix), n ≤ fuel →
      b.rowPointers.getD (a.colIndices.getD indexA 0) 0 ≤ iB →
      iB + n ≤ b.rowPointers.getD (a.colIndices.getD indexA 0 + 1) 0 →
      DenseInv a b r →
      DenseInv a b (v4Chunks b valueA rvi rci n iB r).1 ∧
        iB ≤ (v4Chunks b valueA rvi rci n iB r).2 := by
  intro fuel
  induction fuel with
  | zero =>
    intro n iB r hn h1 h2 hInv
    have hn0 : n = 0 := by omega
    subst hn0
    exact ⟨hInv, le_refl iB⟩
  | succ fuel ih =>
    intro n iB r hn h1 h2 hInv
    rcases n with _ | _ | _ | _ | _ | _ | _ | _ | m
    · exact ⟨hInv, le_refl iB⟩
    · exact ⟨hInv, le_refl iB⟩
    · exact ⟨hInv, le_refl iB⟩
    · exact ⟨hInv, le_refl iB⟩
    · exact ⟨hInv, le_refl iB⟩
    · exact ⟨hInv, le_refl iB⟩
    · exact ⟨hInv, le_refl iB⟩
    · exact ⟨hInv, le_refl iB⟩
    · have s1 := simdScatter_inv a b hva hvb hab r rowA indexA iB rvi rci
        (b.values.getD iB 0 * valueA) hrvi hrow hA1 hA2 h1 (by omega) hInv
      have s2 := simdScatter_inv a b hva hvb hab _ rowA indexA (iB + 1) rvi
        rci (b.values.getD (iB + 1) 0 * valueA) hrvi hrow hA1 hA2 (by omega)
        (by omega) s1
      have s3 := simdScatter_inv a b hva hvb hab _ rowA indexA (iB + 2) rvi
        rci (b.values.getD (iB + 2) 0 * valueA) hrvi hrow hA1 hA2 (by omega)
        (by omega) s2
      have s4 := simdScatter_inv a b hva hvb hab _ rowA indexA (iB + 3) rvi
        rci (b.values.getD (iB + 3) 0 * valueA) hrvi hrow hA1 hA2 (by omega)
        (by omega) s3
      have s5 := simdScatter_inv a b hva hvb hab _ rowA indexA (iB + 4) rvi
        rci (b.values.getD (iB + 4) 0 * valueA) hrvi hrow hA1 hA2 (by omega)
        (by omega) s4
      have s6 := simdScatter_inv a b hva hvb hab _ rowA indexA (iB + 5) rvi
        rci (b.values.getD (iB + 5) 0 * valueA) hrvi hrow hA1 hA2 (by omega)
        (by omega) s5
      have s7 := simdScatter_inv a b hva hvb hab _ rowA indexA (iB + 6) rvi
        rci (b.values.getD (iB + 6) 0 * valueA) hrvi hrow hA1 hA2 (by omega)
        (by omega) s6
      have s8 := simdScatter_inv a b hva hvb hab _ rowA indexA (iB + 7) rvi
        rci (b.values.getD (iB + 7) 0 * valueA) hrvi hrow hA1 hA2 (by omega)
        (by omega) s7
      obtain ⟨hI, hle⟩ := ih m (iB + 8) _ (by omega) (by omega) (by omega) s8
      exact ⟨hI, le_trans (Nat.le_add_right iB 8) hle⟩

theorem simdTail_inv (a b : Matrix) (hva : ValidCSR a) (hvb : ValidCSR b)
    (hab : a.noCols = b.noRows) (valueA : ℚ) (rowA indexA rvi rci : Nat)
    (hrvi : rvi = rowA * b.noCols) (hrow : rowA < a.noRows)
    (hA1 : a.rowPointers.getD rowA 0 ≤ indexA)
    (hA2 : indexA < a.rowPointers.getD (rowA + 1) 0)
    (r : Matrix) (iB0 : Nat)
    (hlo : b.rowPointers.getD (a.colIndices.getD indexA 0) 0 ≤ iB0)
    (hInv : DenseInv a b r) :
    DenseInv a b (simdTail b valueA rvi rci r iB0
      (b.rowPointers.getD (a.colIndices.getD indexA 0 + 1) 0)) := by
  unfold simdTail
  apply foldl_pres (DenseInv a b) _
    (fun iB => b.rowPointers.getD (a.colIndices.getD indexA 0) 0 ≤ iB ∧
      iB < b.rowPointers.getD (a.colIndices.getD indexA 0 + 1) 0)
    ?_ _ (fun x hx => by have := mem_cRange hx; omega) r hInv
  intro r1 iB hpre hP
  exact simdScatter_inv a b hva hvb hab r1 rowA indexA iB rvi rci _ hrvi hrow
    hA1 hA2 hpre.1 hpre.2 hP

theorem multiply_V3_inv (a b : Matrix) (hva : ValidCSR a) (hvb : ValidCSR b)
    (hab : a.noCols = b.noRows) (r : Matrix) (hInv : DenseInv a b r) :
    DenseInv a b (multiply_V3 a b r) := by
  unfold multiply_V3
  apply foldl_pres (DenseInv a b) _ (fun rowA => rowA < a.noRows)
    ?_ _ (fun x hx => List.mem_range.mp hx) _ (denseInv_rp0 a b r hInv)
  intro r1 rowA hrow hP
  have hfold : ∀ rr : Matrix, DenseInv a b rr → DenseInv a b
      ((cRange (a.rowPointers.getD rowA 0)
        (a.rowPointers.getD (rowA + 1) 0)).foldl
        (fun r indexA =>
          simdTail b (a.values.getD indexA 0) (rowA * r.noCols)
            (rowA * b.noCols)
            (v3Chunks b (a.values.getD indexA 0) (rowA * r.noCols)
              (rowA * b.noCols)
              (b.rowPointers.getD (a.colIndices.getD indexA 0 + 1) 0 -
                b.rowPointers.getD (a.colIndices.getD indexA 0) 0)
              (b.rowPointers.getD (a.colIndices.getD indexA 0) 0) r).1
            (v3Chunks b (a.values.getD indexA 0) (rowA * r.noCols)
              (rowA * b.noCols)
              (b.rowPointers.getD (a.colIndices.getD indexA 0 + 1) 0 -
                b.rowPointers.getD (a.colIndices.getD indexA 0) 0)
              (b.rowPointers.getD (a.colIndices.getD indexA 0) 0) r).2
            (b.rowPointers.getD (a.colIndices.getD indexA 0 + 1) 0))
        rr) := by
    intro rr hrr
    apply foldl_pres (DenseInv a b) _
      (fun indexA => a.rowPointers.getD rowA 0 ≤ indexA ∧
        indexA < a.rowPointers.getD (rowA + 1) 0)
      ?_ _ (fun x hx => mem_cRange hx) rr hrr
    intro r2 indexA hpreA hP2
    have hrvi : rowA * r2.noCols = rowA * b.noCols := by rw [hP2.1]
    have hiA : indexA < a.values.length :=
      indexA_lt a hva rowA indexA hrow hpreA.2
    have hcA : a.colIndices.getD indexA 0 < b.noRows :=
      colA_lt a b hva hab indexA hiA
    have h5b := hvb.2.2.2.2.1
    have hmono : b.rowPointers.getD (a.colIndices.getD indexA 0) 0 ≤
        b.rowPointers.getD (a.colIndices.getD indexA 0 + 1) 0 :=
      valid_rp_mono b hvb _ _ (by omega) (by omega)
    obtain ⟨hchunk, hge⟩ := v3Chunks_inv a b hva hvb hab
      (a.values.getD indexA 0) rowA indexA (rowA * r2.noCols)
      (rowA * b.noCols) hrvi hrow hpreA.1 hpreA.2
      (b.rowPointers.getD (a.colIndices.getD indexA 0 + 1) 0 -
        b.rowPointers.getD (a.colIndices.getD indexA 0) 0)
      (b.rowPointers.getD (a.colIndices.getD indexA 0 + 1) 0 -
        b.rowPointers.getD (a.colIndices.getD indexA 0) 0)
      (b.rowPointers.getD (a.colIndices.getD indexA 0) 0) r2
      (le_refl _) (le_refl _) (by omega) hP2
    exact simdTail_inv a b hva hvb hab (a.values.getD indexA 0) rowA indexA
      (rowA * r2.noCols) (rowA * b.noCols) hrvi hrow hpreA.1 hpreA.2 _ _
      (le_trans (le_refl _) hge) hchunk
  have h1 := hfold r1 hP
  exact ⟨h1.1, h1.2.1, h1.2.2⟩

theorem multiply_V4_inv (a b : Matrix) (hva : ValidCSR a) (hvb : ValidCSR b)
    (hab : a.noCols = b.noRows) (r : Matrix) (hInv : DenseInv a b r) :
    DenseInv a b (multiply_V4 a b r) := by
  unfold multiply_V4
  apply foldl_pres (DenseInv a b) _ (fun rowA => rowA < a.noRows)
    ?_ _ (fun x hx => List.mem_range.mp hx) _ (denseInv_rp0 a b r hInv)
  intro r1 rowA hrow hP
  have hfold : ∀ rr : Matrix, DenseInv a b rr → DenseInv a b
      ((cRange (a.rowPointers.getD rowA 0)
        (a.rowPointers.getD (rowA + 1) 0)).foldl
        (fun r indexA =>
          simdTail b (a.values.getD indexA 0) (rowA * r.noCols)
            (rowA * b.noCols)
            (v4Chunks b (a.values.getD indexA 0) (rowA * r.noCols)
              (rowA * b.noCols)
              (b.rowPointers.getD (a.colIndices.getD indexA 0 + 1) 0 -
                b.rowPointers.getD (a.colIndices.getD indexA 0) 0)
              (b.rowPointers.getD (a.colIndices.getD indexA 0) 0) r).1
            (v4Chunks b (a.values.getD indexA 0) (rowA * r.noCols)
              (rowA * b.noCols)
              (b.rowPointers.getD (a.colIndices.getD indexA 0 + 1) 0 -
                b.rowPointers.getD (a.colIndices.getD indexA 0) 0)
              (b.rowPointers.getD (a.colIndices.getD indexA 0) 0) r).2
            (b.rowPointers.getD (a.colIndices.getD indexA 0 + 1) 0))
        rr) := by
    intro rr hrr
    apply foldl_pres (DenseInv a b) _
      (fun indexA => a.rowPointers.getD rowA 0 ≤ indexA ∧
        indexA < a.rowPointers.getD (rowA + 1) 0)
      ?_ _ (fun x hx => mem_cRange hx) rr hrr
    intro r2 indexA hpreA hP2
    have hrvi : rowA * r2.noCols = rowA * b.noCols := by rw [hP2.1]
    have hiA : indexA < a.values.length :=
      indexA_lt a hva rowA indexA hrow hpreA.2
    have hcA : a.colIndices.getD indexA 0 < b.noRows :=
      colA_lt a b hva hab indexA hiA
    have h5b := hvb.2.2.2.2.1
    have hmono : b.rowPointers.getD (a.colIndices.getD indexA 0) 0 ≤
        b.rowPointers.getD (a.colIndices.getD indexA 0 + 1) 0 :=
      valid_rp_mono b hvb _ _ (by omega) (by omega)
    obtain ⟨hchunk, hge⟩ := v4Chunks_inv a b hva hvb hab
      (a.values.getD indexA 0) rowA indexA (rowA * r2.noCols)
      (rowA * b.noCols) hrvi hrow hpreA.1 hpreA.2
      (b.rowPointers.getD (a.colIndices.getD indexA 0 + 1) 0 -
        b.rowPointers.getD (a.colIndices.getD indexA 0) 0)
      (b.rowPointers.getD (a.colIndices.getD indexA 0 + 1) 0 -
        b.rowPointers.getD (a.colIndices.getD indexA 0) 0)
      (b.rowPointers.getD (a.colIndices.getD indexA 0) 0) r2
      (le_refl _) (le_refl _) (by omega) hP2
    exact simdTail_inv a b hva hvb hab (a.values.getD indexA 0) rowA indexA
      (rowA * r2.noCols) (rowA * b.noCols) hrvi hrow hpreA.1 hpreA.2 _ _
      (le_trans (le_refl _) hge) hchunk
  have h1 := hfold r1 hP
  exact ⟨h1.1, h1.2.1, h1.2.2⟩

theorem ranges_end_le (rows tc : Nat) (htc : 1 ≤ tc) :
    ∀ se ∈ start_threads_ranges tc rows, se.2 ≤ rows := by
  intro se hse
  rw [start_threads_ranges_eq rows tc htc] at hse
  obtain ⟨i, hi, rfl⟩ := List.mem_map.mp hse
  have hitc : i < tc := List.mem_range.mp hi
  calc tStart rows tc (i + 1) ≤ tStart rows tc tc :=
        tStart_mono rows tc (by omega)
    _ = rows := tStart_top rows tc htc


theorem foldl_pres2 {α β : Type} (P : α → Prop) (f : α → β → α)
    (pre : β → Prop) (hstep : ∀ r x, pre x → P r → P (f r x)) :
    ∀ (is : List β), (∀ x ∈ is, pre x) → ∀ r, P r → P (is.foldl f r) := by
  intro is
  induction is with
  | nil => intro _ r h; exact h
  | cons x xs ih =>
    intro hpre r h
    exact ih (fun y hy => hpre y (List.mem_cons_of_mem x hy)) (f r x)
      (hstep r x (hpre x (List.mem_cons_self x xs)) h)

theorem getD_set {α : Type} (l : List α) (i p : Nat) (x d : α) :
    (l.set i x).getD p d = if i = p ∧ p < l.length then x else l.getD p d := by
  by_cases hp : p < l.length
  · rw [List.getD_eq_getElem (l.set i x) d (by simpa using hp)]
    by_cases hip : i = p
    · subst hip
      rw [if_pos ⟨rfl, hp⟩]
      simp [List.getElem_set]
    · rw [if_neg (by tauto)]
      rw [List.getD_eq_getElem l d hp]
      simp [List.getElem_set, hip]
  · have hnp : ¬(i = p ∧ p < l.length) := by tauto
    rw [if_neg hnp,
      List.getD_eq_default (l.set i x) d (by simpa using Nat.le_of_not_lt hp),
      List.getD_eq_default l d (Nat.le_of_not_lt hp)]

theorem foldl_set_getD (f : Nat → Nat) (js : List Nat) :
    ∀ (l : List Nat) (i : Nat), i < l.length →
      (js.foldl (fun acc r => acc.set r (f r)) l).getD i 0 =
        if i ∈ js then f i else l.getD i 0 := by
  induction js with
  | nil => intro l i hi; simp
  | cons j js ih =>
    intro l i hi
    rw [List.foldl_cons, ih (l.set j (f j)) i (by simpa using hi)]
    by_cases hmem : i ∈ js
    · simp [hmem]
    · rw [getD_set]
      by_cases hij : j = i
      · subst hij
        simp [hi, hmem]
      · have hji : ¬i = j := fun h => hij h.symm
        simp [hij, hji, hmem]

theorem bump_fold_getD (cols : List Nat) :
    ∀ (l : List Nat), (∀ x ∈ cols, x < l.length) → ∀ c, c < l.length →
      (cols.foldl (fun acc col => acc.set col (acc.getD col 0 + 1)) l).getD c 0 =
        l.getD c 0 + cols.count c := by
  induction cols with
  | nil => intro l _ c _; simp
  | cons x xs ih =>
    intro l hall c hc
    rw [List.foldl_cons,
      ih (l.set x (l.getD x 0 + 1))
        (fun y hy => by simpa using hall y (List.mem_cons_of_mem x hy)) c
        (by simpa using hc),
      getD_set, List.count_cons]
    by_cases hxc : x = c
    · subst hxc
      simp [hc]
      omega
    · have hcx : ¬c = x := fun h => hxc h.symm
      simp [hxc, hcx]

theorem range_getD_map (cols : List Nat) :
    (List.range cols.length).map (fun i => cols.getD i 0) = cols := by
  apply List.ext_getElem
  · simp
  · intro i h1 h2
    simp only [List.getElem_map, List.getElem_range]
    exact List.getD_eq_getElem cols 0 h2

theorem foldl_mul_sum (R C : List Nat) (n : Nat) :
    (List.range n).foldl
        (fun acc index => acc + R.getD index 0 * C.getD index 0) 0 =
      ∑ i ∈ Finset.range n, R.getD i 0 * C.getD i 0 := by
  induction n with
  | zero => simp
  | succ n ih =>
    rw [List.range_succ, List.foldl_append, ih, Finset.sum_range_succ]
    simp

theorem rowB_fold_getD (b : Matrix) (c : Nat) (hc : c < b.noRows) :
    ((List.range b.noRows).foldl
        (fun acc rowB =>
          acc.set rowB
            (b.rowPointers.getD (rowB + 1) 0 - b.rowPointers.getD rowB 0))
        (List.replicate b.noRows 0)).getD c 0 = rowLen b c := by
  have h := foldl_set_getD
    (fun rowB => b.rowPointers.getD (rowB + 1) 0 - b.rowPointers.getD rowB 0)
    (List.range b.noRows) (List.replicate b.noRows 0) c (by simpa using hc)
  rw [if_pos (List.mem_range.mpr hc)] at h
  exact h

theorem colA_fold_getD (a : Matrix) (h3 : a.colIndices.length = a.values.length)
    (h4 : ∀ x ∈ a.colIndices, x < a.noCols) (c : Nat) (hc : c < a.noCols) :
    ((List.range a.values.length).foldl
        (fun acc valuesIndex =>
          acc.set (a.colIndices.getD valuesIndex 0)
            (acc.getD (a.colIndices.getD valuesIndex 0) 0 + 1))
        (List.replicate a.noCols 0)).getD c 0 = colCount a c := by
  have hrange : List.range a.values.length = List.range a.colIndices.length := by
    rw [h3]
  rw [hrange]
  have hmap : (List.range a.colIndices.length).foldl
      (fun acc valuesIndex =>
        acc.set (a.colIndices.getD valuesIndex 0)
          (acc.getD (a.colIndices.getD valuesIndex 0) 0 + 1))
      (List.replicate a.noCols 0) =
      a.colIndices.foldl (fun acc col => acc.set col (acc.getD col 0 + 1))
        (List.replicate a.noCols 0) := by
    conv_rhs => rw [← range_getD_map a.colIndices]
    rw [List.foldl_map]
  rw [hmap,
    bump_fold_getD a.colIndices (List.replicate a.noCols 0)
      (fun y hy => by simpa using h4 y hy) c (by simpa using hc)]
  have hz : (List.replicate a.noCols (0 : Nat)).getD c 0 = 0 := by
    rw [List.getD_eq_getElem _ _ (by simpa using hc), List.getElem_replicate]
  rw [hz]
  simp [colCount]

theorem predict_eq (a b : Matrix) (hva : ValidCSR a)
    (hab : a.noCols = b.noRows) :
    predict_values_dimension a b =
      min (∑ c ∈ Finset.range a.noCols, colCount a c * rowLen b c)
        (a.noRows * b.noCols) := by
  have h3 := hva.2.2.1
  have h4 := hva.2.2.2.1
  have key : ∀ R C : List Nat,
      (∀ c, c < a.noCols → R.getD c 0 = rowLen b c) →
      (∀ c, c < a.noCols → C.getD c 0 = colCount a c) →
      (if (List.range a.noCols).foldl
            (fun acc index => acc + R.getD index 0 * C.getD index 0) 0 >
          a.noRows * b.noCols then a.noRows * b.noCols
        else (List.range a.noCols).foldl
          (fun acc index => acc + R.getD index 0 * C.getD index 0) 0) =
        min (∑ c ∈ Finset.range a.noCols, colCount a c * rowLen b c)
          (a.noRows * b.noCols) := by
    intro R C hR hC
    rw [foldl_mul_sum]
    have hsum : ∑ i ∈ Finset.range a.noCols, R.getD i 0 * C.getD i 0 =
        ∑ c ∈ Finset.range a.noCols, colCount a c * rowLen b c := by
      apply Finset.sum_congr rfl
      intro c hc
      rw [hR c (Finset.mem_range.mp hc), hC c (Finset.mem_range.mp hc),
        Nat.mul_comm]
    rw [hsum]
    split <;> omega
  simp only [predict_values_dimension]
  exact key _ _ (fun c hc => rowB_fold_getD b c (by omega))
    (fun c hc => colA_fold_getD a h3 h4 c hc)

theorem macPairs_card_eq_sum (a b : Matrix) (hva : ValidCSR a)
    (hvb : ValidCSR b) (hab : a.noCols = b.noRows) :
    (macPairs a b).card =
      ∑ c ∈ Finset.range a.noCols, colCount a c * rowLen b c := by
  have h3 := hva.2.2.1
  have h4 := hva.2.2.2.1
  rw [card_macPairs a b hvb (fun iA hiA => colA_lt a b hva hab iA hiA)]
  rw [← h3, sum_range_getD (rowLen b) a.colIndices,
    map_sum_count (rowLen b) a.colIndices a.noCols h4]
  rfl

theorem dense_clean_le (a b r : Matrix) (hva : ValidCSR a) (hvb : ValidCSR b)
    (hab : a.noCols = b.noRows) (hInv : DenseInv a b r) :
    (clean_up_csr r).values.length ≤ predict_values_dimension a b := by
  obtain ⟨hc1, hc2⟩ := clean_len_le r
  have hslots : ((Finset.range r.values.length).filter
      (fun p => r.values.getD p 0 ≠ 0)).card ≤ (macPairs a b).card := by
    apply card_slots_le_macPairs
    intro p hp
    exact hInv.2.2 p (Finset.mem_filter.mp hp).2
  have hsum := macPairs_card_eq_sum a b hva hvb hab
  have hlen := hInv.2.1
  rw [predict_eq a b hva hab]
  omega

theorem can_multiply_dims (a b : Matrix) (h : can_multiply a b = true) :
    a.noCols = b.noRows := by
  unfold can_multiply at h
  simp only [Bool.and_eq_true, beq_iff_eq, decide_eq_true_eq] at h
  tauto


theorem get2_replicate (nr nc p q : Nat) :
    get2 (List.replicate nr (List.replicate nc (0 : ℚ))) p q = 0 := by
  unfold get2
  by_cases hp : p < nr
  · have hrow : (List.replicate nr (List.replicate nc (0 : ℚ))).getD p [] =
        List.replicate nc 0 := by
      rw [List.getD_eq_getElem _ _ (by simpa using hp), List.getElem_replicate]
    rw [hrow]
    exact getD_replicate_zero nc q
  · have hrow : (List.replicate nr (List.replicate nc (0 : ℚ))).getD p [] =
        [] :=
      List.getD_eq_default _ _ (by simpa using Nat.le_of_not_lt hp)
    rw [hrow]
    simp

theorem csr_to_ordinary_inv (m : Matrix) : ScatterInv m (csr_to_ordinary m) := by
  unfold csr_to_ordinary
  refine foldl_pres2 (ScatterInv m) _ (fun _ => True) ?_ (List.range m.noRows)
    (fun _ _ => trivial) _ ?_
  · intro ord i _ hP
    refine foldl_pres2 (ScatterInv m) _
      (fun j => m.rowPointers.getD i 0 ≤ j ∧ j < m.rowPointers.getD (i + 1) 0)
      ?_ _ (fun x hx => mem_cRange hx) ord hP
    intro ord2 j hj hP2
    intro p q hpq
    simp only [get2] at hpq
    rw [getD_set] at hpq
    by_cases hcase : i = p ∧ p < ord2.length
    · rw [if_pos hcase] at hpq
      obtain ⟨hip, hplen⟩ := hcase
      subst hip
      rw [getD_set] at hpq
      by_cases hc2 : m.colIndices.getD j 0 = q ∧ q < (ord2.getD i []).length
      · exact ⟨j, hj.1, hj.2, hc2.1⟩
      · rw [if_neg hc2] at hpq
        exact hP2 i q hpq
    · rw [if_neg hcase] at hpq
      exact hP2 p q hpq
  · intro p q hpq
    exact absurd (get2_replicate m.noRows m.noCols p q) hpq

theorem denseMult_inv (a b : Matrix) (ordA ordB : List (List ℚ)) :
    DenseProdInv a.noCols ordA ordB (denseMult a b ordA ordB) := by
  unfold denseMult
  refine foldl_pres2 (DenseProdInv a.noCols ordA ordB) _ (fun _ => True) ?_
    (List.range a.noRows) (fun _ _ => trivial) _ ?_
  · intro ord i _ hP
    refine foldl_pres2 (DenseProdInv a.noCols ordA ordB) _ (fun _ => True) ?_
      (List.range b.noCols) (fun _ _ => trivial) ord hP
    intro ord2 j _ hP2
    refine foldl_pres2 (DenseProdInv a.noCols ordA ordB) _
      (fun k => k < a.noCols) ?_ (List.range a.noCols)
      (fun x hx => List.mem_range.mp hx) ord2 hP2
    intro ord3 k hk hP3
    intro p q hpq
    simp only [get2] at hpq
    rw [getD_set] at hpq
    by_cases hcase : i = p ∧ p < ord3.length
    · rw [if_pos hcase] at hpq
      obtain ⟨hip, hplen⟩ := hcase
      subst hip
      rw [getD_set] at hpq
      by_cases hc2 : j = q ∧ q < (ord3.getD i []).length
      · rw [if_pos hc2] at hpq
        obtain ⟨hjq, hqlen⟩ := hc2
        subst hjq
        by_cases hold : (ord3.getD i []).getD j 0 = 0
        · rw [hold, zero_add] at hpq
          obtain ⟨h1, h2⟩ := mul_ne_zero_iff.mp hpq
          exact ⟨k, hk, h1, h2⟩
        · exact hP3 i j hold
      · rw [if_neg hc2] at hpq
        exact hP3 i q hpq
    · rw [if_neg hcase] at hpq
      exact hP3 p q hpq
  · intro p q hpq
    exact absurd (get2_replicate a.noRows b.noCols p q) hpq

theorem targetCell_of_dense (a b : Matrix) (hva : ValidCSR a)
    (hvb : ValidCSR b) (hab : a.noCols = b.noRows) (p q : Nat)
    (hp : p < a.noRows)
    (hnz : get2 (denseMult a b (csr_to_ordinary a) (csr_to_ordinary b))
      p q ≠ 0) :
    TargetCell a b (p, q) := by
  obtain ⟨k, hk, hA, hB⟩ :=
    denseMult_inv a b (csr_to_ordinary a) (csr_to_ordinary b) p q hnz
  obtain ⟨jA, hjA1, hjA2, hjA3⟩ := csr_to_ordinary_inv a p k hA
  obtain ⟨jB, hjB1, hjB2, hjB3⟩ := csr_to_ordinary_inv b k q hB
  refine ⟨jA, jB, ?_, ?_, ?_⟩
  · rw [mem_macPairs]
    refine ⟨indexA_lt a hva p jA hp hjA2,
      indexA_lt b hvb k jB (by omega) hjB2, ?_, ?_⟩
    · rw [hjA3]; exact hjB1
    · rw [hjA3]; exact hjB2
  · exact (rowOfIndex_eq a hva p jA hp hjA1 hjA2).symm
  · exact hjB3.symm

theorem push_fold_len (row : List ℚ) (js : List Nat) :
    ∀ (V : List ℚ) (C : List Nat),
      ((js.foldl
          (fun (st2 : List ℚ × List Nat) j =>
            if row.getD j 0 ≠ 0 then (st2.1 ++ [row.getD j 0], st2.2 ++ [j])
            else st2)
          (V, C)).1).length =
        V.length + (js.filter (fun j => decide (row.getD j 0 ≠ 0))).length := by
  induction js with
  | nil => intro V C; simp
  | cons j js ih =>
    intro V C
    rw [List.foldl_cons]
    by_cases h : row.getD j 0 ≠ 0
    · rw [if_pos h, ih (V ++ [row.getD j 0]) (C ++ [j]),
        List.filter_cons_of_pos (by simpa using h)]
      simp only [List.length_append, List.length_cons, List.length_nil]
      omega
    · rw [if_neg h, ih V C, List.filter_cons_of_neg (by simpa using h)]

theorem outer_len (ord : List (List ℚ)) (noCols : Nat) :
    ∀ (is : List Nat) (V : List ℚ) (C R : List Nat),
      ((is.foldl
          (fun (st : List ℚ × List Nat × List Nat) i =>
            (((List.range noCols).foldl
                (fun (st2 : List ℚ × List Nat) j =>
                  if (ord.getD i []).getD j 0 ≠ 0 then
                    (st2.1 ++ [(ord.getD i []).getD j 0], st2.2 ++ [j])
                  else st2)
                (st.1, st.2.1)).1,
              ((List.range noCols).foldl
                (fun (st2 : List ℚ × List Nat) j =>
                  if (ord.getD i []).getD j 0 ≠ 0 then
                    (st2.1 ++ [(ord.getD i []).getD j 0], st2.2 ++ [j])
                  else st2)
                (st.1, st.2.1)).2,
              st.2.2 ++ [((List.range noCols).foldl
                (fun (st2 : List ℚ × List Nat) j =>
                  if (ord.getD i []).getD j 0 ≠ 0 then
                    (st2.1 ++ [(ord.getD i []).getD j 0], st2.2 ++ [j])
                  else st2)
                (st.1, st.2.1)).1.length]))
          (V, C, R)).1).length =
        V.length + (is.map (fun i =>
          ((List.range noCols).filter
            (fun j => decide ((ord.getD i []).getD j 0 ≠ 0))).length)).sum := by
  intro is
  induction is with
  | nil => intro V C R; simp
  | cons i is ih =>
    intro V C R
    rw [List.foldl_cons, ih, push_fold_len (ord.getD i []) (List.range noCols)
      V C, List.map_cons, List.sum_cons]
    omega

theorem ordinary_to_csr_values_len (noRows noCols : Nat)
    (ord : List (List ℚ)) :
    (ordinary_to_csr noRows noCols ord).values.length =
      ((List.range noRows).map (fun i =>
        ((List.range noCols).filter
          (fun j => decide ((ord.getD i []).getD j 0 ≠ 0))).length)).sum := by
  have h := outer_len ord noCols (List.range noRows) [] [] [0]
  rw [List.length_nil, Nat.zero_add] at h
  exact h

theorem filter_length_card (P : Nat → Prop) [DecidablePred P] (n : Nat) :
    ((List.range n).filter (fun j => decide (P j))).length =
      ((Finset.range n).filter P).card := by
  induction n with
  | zero => simp
  | succ n ih =>
    rw [List.range_succ, List.filter_append, List.length_append, ih,
      Finset.range_succ, Finset.filter_insert]
    by_cases h : P n
    · rw [if_pos h, Finset.card_insert_of_not_mem
        (fun hmem => absurd (Finset.mem_range.mp
          (Finset.mem_of_mem_filter n hmem)) (by omega))]
      simp [h]
    · rw [if_neg h]
      simp [h]

theorem map_range_sum (f : Nat → Nat) (n : Nat) :
    ((List.range n).map f).sum = ∑ i ∈ Finset.range n, f i := by
  induction n with
  | zero => simp
  | succ n ih =>
    rw [List.range_succ, List.map_append, List.sum_append, ih,
      Finset.sum_range_succ]
    simp

theorem ordinary_to_csr_card (noRows noCols : Nat) (ord : List (List ℚ)) :
    (ordinary_to_csr noRows noCols ord).values.length =
      ((Finset.range noRows ×ˢ Finset.range noCols).filter
        (fun rc => get2 ord rc.1 rc.2 ≠ 0)).card := by
  rw [ordinary_to_csr_values_len, map_range_sum, Finset.card_filter,
    Finset.sum_product]
  apply Finset.sum_congr rfl
  intro i _
  rw [← Finset.card_filter]
  exact filter_length_card (fun j => get2 ord i j ≠ 0) noCols

theorem V1_len_le (a b : Matrix) (hva : ValidCSR a) (hvb : ValidCSR b)
    (hab : a.noCols = b.noRows) :
    (ordinary_to_csr a.noRows b.noCols
        (denseMult a b (csr_to_ordinary a) (csr_to_ordinary b))).values.length ≤
      predict_values_dimension a b := by
  rw [ordinary_to_csr_card, predict_eq a b hva hab,
    ← macPairs_card_eq_sum a b hva hvb hab]
  apply le_min
  · apply card_cells_le_macPairs
    intro rc hrc
    obtain ⟨hmem, hnz⟩ := Finset.mem_filter.mp hrc
    obtain ⟨h1, h2⟩ := Finset.mem_product.mp hmem
    exact targetCell_of_dense a b hva hvb hab rc.1 rc.2
      (Finset.mem_range.mp h1) hnz
  · calc ((Finset.range a.noRows ×ˢ Finset.range b.noCols).filter
        (fun rc => get2 (denseMult a b (csr_to_ordinary a)
          (csr_to_ordinary b)) rc.1 rc.2 ≠ 0)).card
        ≤ (Finset.range a.noRows ×ˢ Finset.range b.noCols).card :=
          Finset.card_filter_le _ _
      _ = a.noRows * b.noCols := by rw [Finset.card_product]; simp


theorem v5Scan_len (v : ℚ) (c : Nat) :
    ∀ (js : List Nat) (r : Matrix) (vep : Nat),
      (v5Scan v c js r vep).1.values.length = r.values.length := by
  intro js
  induction js with
  | nil => intro r vep; rfl
  | cons i rest ih =>
    intro r vep
    simp only [v5Scan]
    split
    · simp [List.length_set]
    · split
      · simp [List.length_set]
      · exact ih r vep

theorem v5RowFold_len (a b r : Matrix) (begPtr : Nat) (js : List Nat)
    (st2 : Matrix × Nat) (h : st2.1.values.length = r.values.length) :
    ((js.foldl
        (fun (st2 : Matrix × Nat) indexA =>
          (cRange (b.rowPointers.getD (a.colIndices.getD indexA 0) 0)
              (b.rowPointers.getD (a.colIndices.getD indexA 0 + 1) 0)).foldl
            (fun (st3 : Matrix × Nat) indexB =>
              v5Scan (a.values.getD indexA 0 * b.values.getD indexB 0)
                (b.colIndices.getD indexB 0)
                (cRange begPtr st3.1.values.length) st3.1 st3.2)
            st2)
        st2)).1.values.length = r.values.length := by
  refine foldl_pres2
    (fun st2 : Matrix × Nat => st2.1.values.length = r.values.length) _
    (fun _ => True) ?_ js (fun _ _ => trivial) st2 h
  intro st2' indexA _ h2
  refine foldl_pres2
    (fun st3 : Matrix × Nat => st3.1.values.length = r.values.length) _
    (fun _ => True) ?_ _ (fun _ _ => trivial) st2' h2
  intro st3 indexB _ h3
  exact (v5Scan_len _ _ _ _ _).trans h3

theorem multiply_V5_len (a b r : Matrix) :
    (multiply_V5 a b r).values.length = r.values.length := by
  simp only [multiply_V5]
  refine foldl_pres2
    (fun st : Matrix × Nat × Nat => st.1.values.length = r.values.length) _
    (fun _ => True) ?_ _ (fun _ _ => trivial) _ rfl
  intro st rowA _ hP
  exact v5RowFold_len a b r st.2.1
    (cRange (a.rowPointers.getD rowA 0) (a.rowPointers.getD (rowA + 1) 0))
    (st.1, st.2.2) hP

theorem matr_mult_csr_V5_len (a b : Matrix) (m : Matrix)
    (h : matr_mult_csr_V5 a b = Except.ok m) :
    m.values.length ≤ predict_values_dimension a b := by
  simp only [matr_mult_csr_V5] at h
  by_cases hcm : can_multiply a b = false
  · rw [if_pos hcm] at h
    exact absurd h (by simp)
  · rw [if_neg hcm] at h
    injection h with hm
    subst hm
    obtain ⟨-, hc2⟩ :=
      clean_len_le (multiply_V5 a b (init_empty_csr_matrix a b true))
    have hlen : (multiply_V5 a b
        (init_empty_csr_matrix a b true)).values.length =
        predict_values_dimension a b := by
      rw [multiply_V5_len]
      simp [init_empty_csr_matrix]
    omega

theorem matr_mult_csr_V1_len (a b : Matrix) (hva : ValidCSR a)
    (hvb : ValidCSR b) (hab : a.noCols = b.noRows) (m : Matrix)
    (h : matr_mult_csr_V1 a b = Except.ok m) :
    m.values.length ≤ predict_values_dimension a b := by
  simp only [matr_mult_csr_V1] at h
  by_cases hcm : can_multiply a b = false
  · rw [if_pos hcm] at h
    exact absurd h (by simp)
  · rw [if_neg hcm] at h
    injection h with hm
    subst hm
    exact V1_len_le a b hva hvb hab

theorem matr_mult_csr_V2_len (a b : Matrix) (hva : ValidCSR a)
    (hvb : ValidCSR b) (hab : a.noCols = b.noRows) (m : Matrix)
    (h : matr_mult_csr_V2 a b = Except.ok m) :
    m.values.length ≤ predict_values_dimension a b := by
  simp only [matr_mult_csr_V2] at h
  by_cases hcm : can_multiply a b = false
  · rw [if_pos hcm] at h
    exact absurd h (by simp)
  · rw [if_neg hcm] at h
    injection h with hm
    subst hm
    exact dense_clean_le a b _ hva hvb hab
      (multiply_V2_inv a b hva hvb hab _ (denseInv_init a b))

theorem matr_mult_csr_V3_len (a b : Matrix) (hva : ValidCSR a)
    (hvb : ValidCSR b) (hab : a.noCols = b.noRows) (m : Matrix)
    (h : matr_mult_csr_V3 a b = Except.ok m) :
    m.values.length ≤ predict_values_dimension a b := by
  simp only [matr_mult_csr_V3] at h
  by_cases hcm : can_multiply a b = false
  · rw [if_pos hcm] at h
    exact absurd h (by simp)
  · rw [if_neg hcm] at h
    injection h with hm
    subst hm
    exact dense_clean_le a b _ hva hvb hab
      (multiply_V3_inv a b hva hvb hab _ (denseInv_init a b))

theorem matr_mult_csr_V4_len (avx : Bool) (a b : Matrix) (hva : ValidCSR a)
    (hvb : ValidCSR b) (hab : a.noCols = b.noRows) (m : Matrix)
    (h : matr_mult_csr_V4 avx a b = Except.ok m) :
    m.values.length ≤ predict_values_dimension a b := by
  simp only [matr_mult_csr_V4] at h
  by_cases havx : avx = false
  · rw [if_pos havx] at h
    exact matr_mult_csr_V1_len a b hva hvb hab m h
  · rw [if_neg havx] at h
    by_cases hcm : can_multiply a b = false
    · rw [if_pos hcm] at h
      exact absurd h (by simp)
    · rw [if_neg hcm] at h
      injection h with hm
      subst hm
      exact dense_clean_le a b _ hva hvb hab
        (multiply_V4_inv a b hva hvb hab _ (denseInv_init a b))

theorem matr_mult_csr_len (tcount : Nat) (a b : Matrix) (hva : ValidCSR a)
    (hvb : ValidCSR b) (hab : a.noCols = b.noRows) (m : Matrix)
    (h : matr_mult_csr tcount a b = Except.ok m) :
    m.values.length ≤ predict_values_dimension a b := by
  simp only [matr_mult_csr] at h
  by_cases hsmall : a.values.length < 10000 ∨ a.noRows < MIN_THREADS
  · rw [if_pos hsmall] at h
    exact matr_mult_csr_V5_len a b m h
  · rw [if_neg hsmall] at h
    by_cases hcm : can_multiply a b = false
    · rw [if_pos hcm] at h
      exact absurd h (by simp)
    · rw [if_neg hcm] at h
      injection h with hm
      subst hm
      have hone : ∀ x : Nat, 1 ≤ if x < MIN_THREADS then MIN_THREADS else x := by
        intro x
        unfold MIN_THREADS
        split <;> omega
      apply dense_clean_le a b _ hva hvb hab
      refine foldl_pres (DenseInv a b) _
        (fun se : Nat × Nat => se.2 ≤ a.noRows) ?_ _
        (ranges_end_le a.noRows _ (hone _)) _ (denseInv_init a b)
      intro r1 se hse hP
      exact multiply_main_implementation_inv a b hva hvb hab r1 se.1 se.2
        hse hP

/-- **C2**: for every valid multiplicable pair `(A, B)`,
`predict_values_dimension` computes exactly
`min (Σ_c colCountA[c] * rowLenB[c]) (noRows_A * noCols_B)`; that value
is at most `noRows_A * noCols_B`, and the stored-entry count of the
product returned by every kernel (V1, V2, V3, V4 with or without AVX,
V5, and the threaded dispatcher at any processor count) is at most the
predicted value. -/
theorem C2_size_prediction_upper_bound (a b : Matrix) (hva : ValidCSR a)
    (hvb : ValidCSR b) (hcm : can_multiply a b = true) :
    predict_values_dimension a b =
      min (∑ c ∈ Finset.range a.noCols, colCount a c * rowLen b c)
        (a.noRows * b.noCols) ∧
    predict_values_dimension a b ≤ a.noRows * b.noCols ∧
    (∀ m, matr_mult_csr_V1 a b = Except.ok m →
      m.values.length ≤ predict_values_dimension a b) ∧
    (∀ m, matr_mult_csr_V2 a b = Except.ok m →
      m.values.length ≤ predict_values_dimension a b) ∧
    (∀ m, matr_mult_csr_V3 a b = Except.ok m →
      m.values.length ≤ predict_values_dimension a b) ∧
    (∀ avx m, matr_mult_csr_V4 avx a b = Except.ok m →
      m.values.length ≤ predict_values_dimension a b) ∧
    (∀ m, matr_mult_csr_V5 a b = Except.ok m →
      m.values.length ≤ predict_values_dimension a b) ∧
    (∀ tcount m, matr_mult_csr tcount a b = Except.ok m →
      m.values.length ≤ predict_values_dimension a b) := by
  have hab := can_multiply_dims a b hcm
  refine ⟨predict_eq a b hva hab, ?_, ?_, ?_, ?_, ?_, ?_, ?_⟩
  · rw [predict_eq a b hva hab]
    exact min_le_right _ _
  · exact fun m h => matr_mult_csr_V1_len a b hva hvb hab m h
  · exact fun m h => matr_mult_csr_V2_len a b hva hvb hab m h
  · exact fun m h => matr_mult_csr_V3_len a b hva hvb hab m h
  · exact fun avx m h => matr_mult_csr_V4_len avx a b hva hvb hab m h
  · exact fun m h => matr_mult_csr_V5_len a b m h
  · exact fun tcount m h => matr_mult_csr_len tcount a b hva hvb hab m h

/-- Witness for C2 at the concrete example pair: the hypotheses hold and
the theorem applies. -/
theorem C2_size_prediction_upper_bound_witness :
    ValidCSR exampleA ∧ ValidCSR exampleB ∧
      can_multiply exampleA exampleB = true ∧
      predict_values_dimension exampleA exampleB ≤
        exampleA.noRows * exampleB.noCols :=
  ⟨by decide, by decide, by decide,
    (C2_size_prediction_upper_bound exampleA exampleB (by decide) (by decide)
      (by decide)).2.1⟩


theorem range_getD_map2 {α : Type} (d : α) (l : List α) :
    (List.range l.length).map (fun i => l.getD i d) = l := by
  apply List.ext_getElem
  · simp
  · intro i h1 h2
    simp only [List.getElem_map, List.getElem_range]
    exact List.getD_eq_getElem l d h2

theorem set_getD_self (l : List (List ℚ)) (i : Nat) :
    l.set i (l.getD i []) = l := by
  by_cases hi : i < l.length
  · apply List.ext_getElem (by simp)
    intro k h1 h2
    rw [List.getElem_set]
    split
    · next heq =>
        subst heq
        exact List.getD_eq_getElem l [] (by simpa using h2)
    · rfl
  · rw [List.set_eq_of_length_le (Nat.le_of_not_lt hi)]

theorem set_fold_comm (c : Nat → Nat) (v : Nat → ℚ) (i : Nat) :
    ∀ (js : List Nat) (ord : List (List ℚ)),
      js.foldl (fun ord j => ord.set i ((ord.getD i []).set (c j) (v j)))
          ord =
        ord.set i (js.foldl (fun row j => row.set (c j) (v j))
          (ord.getD i [])) := by
  intro js
  induction js with
  | nil => intro ord; exact (set_getD_self ord i).symm
  | cons j js ih =>
    intro ord
    rw [List.foldl_cons, List.foldl_cons, ih]
    by_cases hi : i < ord.length
    · have h1 : (ord.set i ((ord.getD i []).set (c j) (v j))).getD i [] =
          (ord.getD i []).set (c j) (v j) := by
        rw [List.getD_eq_getElem _ _ (by simpa using hi)]
        simp [List.getElem_set]
      rw [h1, List.set_set]
    · have e1 : ord.set i ((ord.getD i []).set (c j) (v j)) = ord :=
        List.set_eq_of_length_le (Nat.le_of_not_lt hi)
      have hgd : ord.getD i [] = [] :=
        List.getD_eq_default _ _ (Nat.le_of_not_lt hi)
      rw [e1, hgd]
      rfl

theorem rowfold_getD_none (c : Nat → Nat) (v : Nat → ℚ) (q : Nat) :
    ∀ (js : List Nat) (row : List ℚ), (∀ j ∈ js, c j ≠ q) →
      (js.foldl (fun row j => row.set (c j) (v j)) row).getD q 0 =
        row.getD q 0 := by
  intro js
  induction js with
  | nil => intro row _; rfl
  | cons j js ih =>
    intro row h
    rw [List.foldl_cons,
      ih _ (fun j' hj' => h j' (List.mem_cons_of_mem j hj')), getD_set,
      if_neg (fun hc => h j (List.mem_cons_self j js) hc.1)]

theorem rowfold_getD_at (c : Nat → Nat) (v : Nat → ℚ) (q j₀ : Nat) :
    ∀ (js : List Nat) (row : List ℚ), j₀ ∈ js → c j₀ = q →
      q < row.length → (∀ j ∈ js, c j = q → j = j₀) →
      (js.foldl (fun row j => row.set (c j) (v j)) row).getD q 0 = v j₀ := by
  intro js
  induction js with
  | nil => intro row hmem; exact absurd hmem (List.not_mem_nil j₀)
  | cons j js ih =>
    intro row hmem hc hq huniq
    rw [List.foldl_cons]
    by_cases hmem' : j₀ ∈ js
    · exact ih _ hmem' hc (by simpa using hq)
        (fun j' hj' hcj' => huniq j' (List.mem_cons_of_mem j hj') hcj')
    · have hj : j = j₀ := by
        rcases List.mem_cons.mp hmem with h | h
        · exact h.symm
        · exact absurd h hmem'
      subst hj
      rw [rowfold_getD_none c v q js _ (fun j' hj' hcj' => hmem'
          (huniq j' (List.mem_cons_of_mem j hj') hcj' ▸ hj')),
        getD_set, if_pos ⟨hc, hq⟩]

theorem outerfold_length (c : Nat → Nat) (v : Nat → ℚ) (K : Nat → List Nat) :
    ∀ (is : List Nat) (ord : List (List ℚ)),
      (is.foldl (fun ord i' => (K i').foldl
        (fun ord j => ord.set i' ((ord.getD i' []).set (c j) (v j))) ord)
        ord).length = ord.length := by
  intro is
  induction is with
  | nil => intro ord; rfl
  | cons i' is ih =>
    intro ord
    rw [List.foldl_cons, ih, set_fold_comm, List.length_set]

theorem outerfold_untouched (c : Nat → Nat) (v : Nat → ℚ)
    (K : Nat → List Nat) (i : Nat) :
    ∀ (is : List Nat), (∀ i' ∈ is, i' ≠ i) → ∀ (ord : List (List ℚ)),
      (is.foldl (fun ord i' => (K i').foldl
        (fun ord j => ord.set i' ((ord.getD i' []).set (c j) (v j))) ord)
        ord).getD i [] = ord.getD i [] := by
  intro is
  induction is with
  | nil => intro _ ord; rfl
  | cons i' is ih =>
    intro h ord
    rw [List.foldl_cons, ih (fun x hx => h x (List.mem_cons_of_mem i' hx)),
      set_fold_comm, getD_set,
      if_neg (fun hcc => h i' (List.mem_cons_self i' is) hcc.1)]

theorem outerfold_row (c : Nat → Nat) (v : Nat → ℚ) (K : Nat → List Nat)
    (n noCols i : Nat) (hi : i < n) :
    ((List.range n).foldl (fun ord i' => (K i').foldl
        (fun ord j => ord.set i' ((ord.getD i' []).set (c j) (v j))) ord)
      (List.replicate n (List.replicate noCols 0))).getD i [] =
      (K i).foldl (fun row j => row.set (c j) (v j))
        (List.replicate noCols 0) := by
  have hsplit : List.range n = List.range i ++ i ::
      (List.range (n - (i + 1))).map (fun k => (i + 1) + k) := by
    have h1 : List.range n = List.range (i + 1) ++
        (List.range (n - (i + 1))).map (fun k => (i + 1) + k) := by
      rw [← List.range_add]
      congr 1
      omega
    rw [h1, List.range_succ]
    simp [List.append_assoc]
  rw [hsplit, List.foldl_append, List.foldl_cons]
  rw [set_fold_comm]
  rw [outerfold_untouched c v K i (List.range i)
    (fun x hx => by have := List.mem_range.mp hx; omega)]
  have hrepl : (List.replicate n (List.replicate noCols (0 : ℚ))).getD i [] =
      List.replicate noCols 0 := by
    rw [List.getD_eq_getElem _ _ (by simpa using hi), List.getElem_replicate]
  rw [hrepl]
  rw [outerfold_untouched c v K i _
    (fun x hx => by
      obtain ⟨k, hk, rfl⟩ := List.mem_map.mp hx
      omega)]
  have hlen : ((List.range i).foldl (fun ord i' => (K i').foldl
      (fun ord j => ord.set i' ((ord.getD i' []).set (c j) (v j))) ord)
      (List.replicate n (List.replicate noCols 0))).length = n :=
    (outerfold_length c v K (List.range i) _).trans (by simp)
  rw [getD_set, if_pos ⟨rfl, by omega⟩]

theorem csr_row_final (M : Matrix) (i : Nat) (hi : i < M.noRows) :
    (csr_to_ordinary M).getD i [] =
      (cRange (M.rowPointers.getD i 0) (M.rowPointers.getD (i + 1) 0)).foldl
        (fun row j => row.set (M.colIndices.getD j 0) (M.values.getD j 0))
        (List.replicate M.noCols 0) :=
  outerfold_row (fun j => M.colIndices.getD j 0)
    (fun j => M.values.getD j 0)
    (fun i' => cRange (M.rowPointers.getD i' 0)
      (M.rowPointers.getD (i' + 1) 0)) M.noRows M.noCols i hi

theorem csr_to_ordinary_length (M : Matrix) :
    (csr_to_ordinary M).length = M.noRows :=
  (outerfold_length (fun j => M.colIndices.getD j 0)
    (fun j => M.values.getD j 0)
    (fun i' => cRange (M.rowPointers.getD i' 0)
      (M.rowPointers.getD (i' + 1) 0)) (List.range M.noRows) _).trans
    (by simp)

theorem rowfold_length (c : Nat → Nat) (v : Nat → ℚ) :
    ∀ (js : List Nat) (row : List ℚ),
      (js.foldl (fun row j => row.set (c j) (v j)) row).length =
        row.length := by
  intro js
  induction js with
  | nil => intro row; rfl
  | cons j js ih =>
    intro row
    rw [List.foldl_cons, ih, List.length_set]


theorem push_fold_eq (row : List ℚ) (js : List Nat) :
    ∀ (V : List ℚ) (C : List Nat),
      js.foldl
          (fun (st2 : List ℚ × List Nat) j =>
            if row.getD j 0 ≠ 0 then (st2.1 ++ [row.getD j 0], st2.2 ++ [j])
            else st2) (V, C) =
        (V ++ (js.filter (fun j => decide (row.getD j 0 ≠ 0))).map
            (fun j => row.getD j 0),
          C ++ js.filter (fun j => decide (row.getD j 0 ≠ 0))) := by
  induction js with
  | nil => intro V C; simp
  | cons j js ih =>
    intro V C
    rw [List.foldl_cons]
    by_cases h : row.getD j 0 ≠ 0
    · rw [if_pos h, ih, List.filter_cons_of_pos (by simpa using h)]
      simp [List.append_assoc]
    · rw [if_neg h, ih, List.filter_cons_of_neg (by simpa using h)]

theorem otc_slices (D : List (List ℚ)) (noCols : Nat) :
    ∀ (is : List Nat) (V : List ℚ) (C R : List Nat),
      is.foldl
          (fun (st : List ℚ × List Nat × List Nat) i =>
            (((List.range noCols).foldl
                (fun (st2 : List ℚ × List Nat) j =>
                  if (D.getD i []).getD j 0 ≠ 0 then
                    (st2.1 ++ [(D.getD i []).getD j 0], st2.2 ++ [j])
                  else st2)
                (st.1, st.2.1)).1,
              ((List.range noCols).foldl
                (fun (st2 : List ℚ × List Nat) j =>
                  if (D.getD i []).getD j 0 ≠ 0 then
                    (st2.1 ++ [(D.getD i []).getD j 0], st2.2 ++ [j])
                  else st2)
                (st.1, st.2.1)).2,
              st.2.2 ++ [((List.range noCols).foldl
                (fun (st2 : List ℚ × List Nat) j =>
                  if (D.getD i []).getD j 0 ≠ 0 then
                    (st2.1 ++ [(D.getD i []).getD j 0], st2.2 ++ [j])
                  else st2)
                (st.1, st.2.1)).1.length]))
          (V, C, R) =
        (V ++ is.flatMap (fun i => (denseRowCols D noCols i).map
            (fun j => (D.getD i []).getD j 0)),
          C ++ is.flatMap (fun i => denseRowCols D noCols i),
          R ++ ptrSums V.length
            (is.map (fun i => (denseRowCols D noCols i).length))) := by
  intro is
  induction is with
  | nil => intro V C R; simp [ptrSums]
  | cons i is ih =>
    intro V C R
    rw [List.foldl_cons, push_fold_eq (D.getD i []) (List.range noCols) V C]
    dsimp only
    rw [ih]
    simp [List.append_assoc, ptrSums, denseRowCols, List.length_append,
      List.length_map, List.flatMap_cons]

theorem ordinary_to_csr_eq (noRows noCols : Nat) (D : List (List ℚ)) :
    ordinary_to_csr noRows noCols D =
      { noRows := noRows, noCols := noCols,
        values := (List.range noRows).flatMap
          (fun i => (denseRowCols D noCols i).map
            (fun j => (D.getD i []).getD j 0)),
        colIndices := (List.range noRows).flatMap
          (fun i => denseRowCols D noCols i),
        rowPointers := 0 :: ptrSums 0
          ((List.range noRows).map
            (fun i => (denseRowCols D noCols i).length)) } :=
  congrArg (fun st : List ℚ × List Nat × List Nat =>
    (⟨noRows, noCols, st.1, st.2.1, st.2.2⟩ : Matrix))
    (otc_slices D noCols (List.range noRows) [] [] [0])

theorem ptrSums_length : ∀ (ks : List Nat) (t : Nat),
    (ptrSums t ks).length = ks.length := by
  intro ks
  induction ks with
  | nil => intro t; rfl
  | cons k ks ih => intro t; simp [ptrSums, ih]

theorem ptrSums_getD : ∀ (ks : List Nat) (t m : Nat), m < ks.length →
    (ptrSums t ks).getD m 0 = t + (ks.take (m + 1)).sum := by
  intro ks
  induction ks with
  | nil => intro t m hm; simp at hm
  | cons k ks ih =>
    intro t m hm
    cases m with
    | zero => simp [ptrSums]
    | succ m =>
      rw [show ptrSums t (k :: ks) = (t + k) :: ptrSums (t + k) ks from rfl,
        List.getD_cons_succ, ih (t + k) m (by simpa using hm),
        List.take_succ_cons, List.sum_cons]
      omega

theorem otc_rp_getD (noRows noCols : Nat) (D : List (List ℚ)) (m : Nat)
    (hm : m ≤ noRows) :
    (ordinary_to_csr noRows noCols D).rowPointers.getD m 0 =
      (((List.range noRows).map
        (fun i => (denseRowCols D noCols i).length)).take m).sum := by
  rw [ordinary_to_csr_eq]
  dsimp only
  cases m with
  | zero => simp
  | succ m =>
    rw [List.getD_cons_succ, ptrSums_getD _ 0 m (by simp; omega)]
    omega

theorem flatten_slice_getD {α : Type} (d : α) :
    ∀ (Ls : List (List α)) (i : Nat), i < Ls.length →
      (cRange ((Ls.take i).flatten.length)
          ((Ls.take (i + 1)).flatten.length)).map
        (fun j => Ls.flatten.getD j d) = Ls.getD i [] := by
  intro Ls
  induction Ls with
  | nil => intro i hi; simp at hi
  | cons hd tl ih =>
    intro i hi
    cases i with
    | zero =>
      simp only [List.take_zero, List.flatten_nil, List.length_nil,
        List.take_succ_cons, List.flatten_cons, List.append_nil,
        List.getD_cons_zero]
      have hr : cRange 0 hd.length = List.range hd.length := by
        unfold cRange
        rw [Nat.sub_zero]
        exact (List.range_eq_range' hd.length).symm
      rw [hr]
      have hpt : ∀ j ∈ List.range hd.length,
          (hd ++ tl.flatten).getD j d = hd.getD j d := by
        intro j hj
        exact List.getD_append hd tl.flatten d j (List.mem_range.mp hj)
      rw [List.map_congr_left hpt]
      exact range_getD_map2 d hd
    | succ i =>
      have hi' : i < tl.length := by simpa using hi
      simp only [List.take_succ_cons, List.flatten_cons, List.length_append,
        List.getD_cons_succ]
      have hshift : cRange (hd.length + (tl.take i).flatten.length)
          (hd.length + (tl.take (i + 1)).flatten.length) =
          (cRange ((tl.take i).flatten.length)
            ((tl.take (i + 1)).flatten.length)).map
            (fun x => hd.length + x) := by
        unfold cRange
        rw [List.map_add_range']
        congr 1
        omega
      rw [hshift, List.map_map]
      have hpt : ∀ x ∈ cRange ((tl.take i).flatten.length)
          ((tl.take (i + 1)).flatten.length),
          ((fun j => (hd ++ tl.flatten).getD j d) ∘
            (fun x => hd.length + x)) x = tl.flatten.getD x d := by
        intro x _
        simp only [Function.comp_apply]
        rw [List.getD_append_right hd tl.flatten d (hd.length + x)
          (Nat.le_add_right _ _)]
        congr 1
        omega
      rw [List.map_congr_left hpt]
      exact ih i hi'

theorem flatten_slice_getD2 {α : Type} (d : α) (Ls : List (List α))
    (i : Nat) (hi : i < Ls.length) :
    (cRange (((Ls.map List.length).take i).sum)
        (((Ls.map List.length).take (i + 1)).sum)).map
      (fun j => Ls.flatten.getD j d) = Ls.getD i [] := by
  have h1 : ∀ m, ((Ls.map List.length).take m).sum =
      (Ls.take m).flatten.length := by
    intro m
    rw [List.length_flatten, List.map_take]
  rw [h1, h1]
  exact flatten_slice_getD d Ls i hi

theorem getD_map_range {α : Type} (d : α) (f : Nat → α) (n i : Nat)
    (hi : i < n) : ((List.range n).map f).getD i d = f i := by
  rw [List.getD_eq_getElem _ _ (by simpa using hi)]
  simp

theorem zip_self_map {β : Type} (f : Nat → β) :
    ∀ (l : List Nat), l.zip (l.map f) = l.map (fun q => (q, f q)) := by
  intro l
  induction l with
  | nil => rfl
  | cons x xs ih => simp [ih]


theorem otc_row_slice (noRows noCols : Nat) (D : List (List ℚ)) (i : Nat)
    (hi : i < noRows) :
    (cRange ((ordinary_to_csr noRows noCols D).rowPointers.getD i 0)
        ((ordinary_to_csr noRows noCols D).rowPointers.getD (i + 1) 0)).map
      (fun j => ((ordinary_to_csr noRows noCols D).colIndices.getD j 0,
        (ordinary_to_csr noRows noCols D).values.getD j 0)) =
      (denseRowCols D noCols i).map
        (fun q => (q, (D.getD i []).getD q 0)) := by
  rw [otc_rp_getD noRows noCols D i (Nat.le_of_lt hi),
    otc_rp_getD noRows noCols D (i + 1) hi,
    ordinary_to_csr_eq noRows noCols D]
  dsimp only
  rw [← List.zip_map']
  have hfc : (List.range noRows).flatMap (fun r => denseRowCols D noCols r) =
      ((List.range noRows).map
        (fun r => denseRowCols D noCols r)).flatten := rfl
  have hfv : (List.range noRows).flatMap
      (fun r => (denseRowCols D noCols r).map
        (fun j => (D.getD r []).getD j 0)) =
      ((List.range noRows).map (fun r => (denseRowCols D noCols r).map
        (fun j => (D.getD r []).getD j 0))).flatten := rfl
  rw [hfc, hfv]
  have hCB : ((List.range noRows).map
      (fun r => denseRowCols D noCols r)).map List.length =
      (List.range noRows).map
        (fun i => (denseRowCols D noCols i).length) := by
    rw [List.map_map]
    rfl
  have hVB : ((List.range noRows).map
      (fun r => (denseRowCols D noCols r).map
        (fun j => (D.getD r []).getD j 0))).map List.length =
      (List.range noRows).map
        (fun i => (denseRowCols D noCols i).length) := by
    rw [List.map_map]
    apply List.map_congr_left
    intro r _
    simp
  have hc := flatten_slice_getD2 0 ((List.range noRows).map
      (fun r => denseRowCols D noCols r)) i (by simpa using hi)
  rw [hCB] at hc
  have hv := flatten_slice_getD2 (0 : ℚ) ((List.range noRows).map
      (fun r => (denseRowCols D noCols r).map
        (fun j => (D.getD r []).getD j 0))) i (by simpa using hi)
  rw [hVB] at hv
  rw [hc, hv,
    getD_map_range [] (fun r => denseRowCols D noCols r) noRows i hi,
    getD_map_range [] (fun r => (denseRowCols D noCols r).map
      (fun j => (D.getD r []).getD j 0)) noRows i hi]
  exact zip_self_map (fun q => (D.getD i []).getD q 0)
    (denseRowCols D noCols i)

theorem get2_csr_to_ordinary_at (M : Matrix) (i : Nat) (hi : i < M.noRows)
    (j₀ q : Nat)
    (hj₀ : j₀ ∈ cRange (M.rowPointers.getD i 0)
      (M.rowPointers.getD (i + 1) 0))
    (hc : M.colIndices.getD j₀ 0 = q) (hq : q < M.noCols)
    (huniq : ∀ j ∈ cRange (M.rowPointers.getD i 0)
      (M.rowPointers.getD (i + 1) 0), M.colIndices.getD j 0 = q → j = j₀) :
    get2 (csr_to_ordinary M) i q = M.values.getD j₀ 0 := by
  show ((csr_to_ordinary M).getD i []).getD q 0 = _
  rw [csr_row_final M i hi]
  exact rowfold_getD_at (fun j => M.colIndices.getD j 0)
    (fun j => M.values.getD j 0) q j₀ _ _ hj₀ hc (by simpa using hq) huniq

theorem get2_csr_to_ordinary_none (M : Matrix) (i : Nat) (hi : i < M.noRows)
    (q : Nat)
    (hnone : ∀ j ∈ cRange (M.rowPointers.getD i 0)
      (M.rowPointers.getD (i + 1) 0), M.colIndices.getD j 0 ≠ q) :
    get2 (csr_to_ordinary M) i q = 0 := by
  show ((csr_to_ordinary M).getD i []).getD q 0 = 0
  rw [csr_row_final M i hi,
    rowfold_getD_none (fun j => M.colIndices.getD j 0)
      (fun j => M.values.getD j 0) q _ _ hnone]
  exact getD_replicate_zero M.noCols q

theorem getElem_eq_get2 (X : List (List ℚ)) (k q : Nat) (h1 : k < X.length)
    (h2 : q < (X.get ⟨k, h1⟩).length) :
    (X.get ⟨k, h1⟩).get ⟨q, h2⟩ = get2 X k q := by
  unfold get2
  rw [List.getD_eq_getElem X [] h1, List.getD_eq_getElem _ 0 (by simpa using h2)]
  rfl

theorem otc_cols_nodup (noRows noCols : Nat) (D : List (List ℚ)) (k : Nat)
    (hk : k < noRows) :
    ((cRange ((ordinary_to_csr noRows noCols D).rowPointers.getD k 0)
        ((ordinary_to_csr noRows noCols D).rowPointers.getD (k + 1) 0)).map
      (fun j => (ordinary_to_csr noRows noCols D).colIndices.getD j 0)).Nodup := by
  have h := congrArg (List.map Prod.fst) (otc_row_slice noRows noCols D k hk)
  rw [List.map_map, List.map_map] at h
  have h2 : (denseRowCols D noCols k).map
      (Prod.fst ∘ (fun q => (q, (D.getD k []).getD q 0))) =
      denseRowCols D noCols k := by
    rw [show (Prod.fst ∘ (fun q => (q, (D.getD k []).getD q 0))) =
      (id : Nat → Nat) from rfl, List.map_id]
  rw [h2] at h
  rw [show (fun j => (ordinary_to_csr noRows noCols D).colIndices.getD j 0) =
    (Prod.fst ∘ (fun j =>
      ((ordinary_to_csr noRows noCols D).colIndices.getD j 0,
        (ordinary_to_csr noRows noCols D).values.getD j 0))) from rfl, h]
  exact List.Nodup.filter _ (List.nodup_range noCols)

theorem dense_roundtrip (noRows noCols : Nat) (D : List (List ℚ))
    (hposr : 0 < noRows) (hposc : 0 < noCols)
    (hlen : D.length = noRows) (hrows : ∀ row ∈ D, row.length = noCols) :
    csr_to_ordinary (ordinary_to_csr noRows noCols D) = D := by
  have hcell : ∀ k, k < noRows → ∀ q, q < noCols →
      get2 (csr_to_ordinary (ordinary_to_csr noRows noCols D)) k q =
        get2 D k q := by
    intro k hk q hq
    by_cases hnz : get2 D k q = 0
    · rw [get2_csr_to_ordinary_none (ordinary_to_csr noRows noCols D) k hk q
        ?_, hnz]
      intro j hj hcol
      have hmem : ((ordinary_to_csr noRows noCols D).colIndices.getD j 0,
          (ordinary_to_csr noRows noCols D).values.getD j 0) ∈
          (denseRowCols D noCols k).map
            (fun q => (q, (D.getD k []).getD q 0)) := by
        rw [← otc_row_slice noRows noCols D k hk]
        exact List.mem_map_of_mem _ hj
      obtain ⟨q', hq', hpair⟩ := List.mem_map.mp hmem
      have hq1 : q' = (ordinary_to_csr noRows noCols D).colIndices.getD j 0 :=
        congrArg Prod.fst hpair
      have hqq : q' = q := hq1.trans hcol
      subst hqq
      have := List.of_mem_filter hq'
      rw [decide_eq_true_eq] at this
      exact this hnz
    · have hmem : (q, (D.getD k []).getD q 0) ∈
          (denseRowCols D noCols k).map
            (fun q => (q, (D.getD k []).getD q 0)) :=
        List.mem_map_of_mem _ (List.mem_filter.mpr
          ⟨List.mem_range.mpr hq, decide_eq_true hnz⟩)
      rw [← otc_row_slice noRows noCols D k hk] at hmem
      obtain ⟨j₀, hj₀, hpair⟩ := List.mem_map.mp hmem
      have hcol : (ordinary_to_csr noRows noCols D).colIndices.getD j₀ 0 =
          q := congrArg Prod.fst hpair
      have hval : (ordinary_to_csr noRows noCols D).values.getD j₀ 0 =
          (D.getD k []).getD q 0 := congrArg Prod.snd hpair
      rw [get2_csr_to_ordinary_at (ordinary_to_csr noRows noCols D) k hk j₀ q
        hj₀ hcol hq ?_, hval]
      · rfl
      · intro j hj hcj
        exact List.inj_on_of_nodup_map (otc_cols_nodup noRows noCols D k hk)
          hj hj₀ (hcj.trans hcol.symm)
  apply List.ext_get
  · rw [csr_to_ordinary_length]
    exact hlen.symm
  · intro k h1 h2
    apply List.ext_get
    · have hk : k < noRows := by omega
      rw [show ((csr_to_ordinary (ordinary_to_csr noRows noCols D)).get
          ⟨k, h1⟩) = (csr_to_ordinary (ordinary_to_csr noRows
          noCols D)).getD k [] from
          (List.getD_eq_getElem _ [] h1).symm,
        csr_row_final _ k hk, rowfold_length, List.length_replicate,
        hrows (D.get ⟨k, h2⟩) (List.get_mem D k h2)]
      rfl
    · intro q hq1 hq2
      have hk : k < noRows := by omega
      have hq : q < noCols := by
        have := hrows (D.get ⟨k, h2⟩) (List.get_mem D k h2)
        omega
      rw [getElem_eq_get2 _ k q h1 hq1, getElem_eq_get2 D k q h2 hq2]
      exact hcell k hk q hq


theorem csr_dense_row_facts (M : Matrix) (hv : ValidCSR M) (r : Nat)
    (hr : r < M.noRows)
    (hnd : ((csrRowPairs M r).map Prod.fst).Nodup) :
    (∀ q, q ∈ denseRowCols (csr_to_ordinary M) M.noCols r ↔
      ∃ j ∈ cRange (M.rowPointers.getD r 0) (M.rowPointers.getD (r + 1) 0),
        M.colIndices.getD j 0 = q) ∧
    (∀ j ∈ cRange (M.rowPointers.getD r 0) (M.rowPointers.getD (r + 1) 0),
      ((csr_to_ordinary M).getD r []).getD (M.colIndices.getD j 0) 0 =
        M.values.getD j 0) := by
  have h2 := hv.2.1
  have h3 := hv.2.2.1
  have h4 := hv.2.2.2.1
  have h5 := hv.2.2.2.2.1
  have hnodup : ((cRange (M.rowPointers.getD r 0)
      (M.rowPointers.getD (r + 1) 0)).map
      (fun j => M.colIndices.getD j 0)).Nodup := by
    unfold csrRowPairs at hnd
    rw [List.map_map] at hnd
    exact hnd
  have hjlen : ∀ j ∈ cRange (M.rowPointers.getD r 0)
      (M.rowPointers.getD (r + 1) 0), j < M.values.length := by
    intro j hj
    have h1 := mem_cRange hj
    have h2' := valid_rp_le_len M hv (r + 1) (by omega)
    omega
  have hcol_lt : ∀ j ∈ cRange (M.rowPointers.getD r 0)
      (M.rowPointers.getD (r + 1) 0),
      M.colIndices.getD j 0 < M.noCols := by
    intro j hj
    have hjv := hjlen j hj
    have hmem : M.colIndices.getD j 0 ∈ M.colIndices := by
      rw [List.getD_eq_getElem _ 0 (by omega)]
      exact List.getElem_mem _
    exact h4 _ hmem
  have hval_ne : ∀ j ∈ cRange (M.rowPointers.getD r 0)
      (M.rowPointers.getD (r + 1) 0), M.values.getD j 0 ≠ 0 := by
    intro j hj
    have hjv := hjlen j hj
    have hmem : M.values.getD j 0 ∈ M.values := by
      rw [List.getD_eq_getElem _ 0 (by simpa using hjv)]
      exact List.getElem_mem _
    exact h2 _ hmem
  have hat : ∀ j ∈ cRange (M.rowPointers.getD r 0)
      (M.rowPointers.getD (r + 1) 0),
      get2 (csr_to_ordinary M) r (M.colIndices.getD j 0) =
        M.values.getD j 0 := by
    intro j hj
    exact get2_csr_to_ordinary_at M r hr j (M.colIndices.getD j 0) hj rfl
      (hcol_lt j hj)
      (fun j' hj' hcj' => List.inj_on_of_nodup_map hnodup hj' hj hcj')
  refine ⟨?_, fun j hj => hat j hj⟩
  intro q
  constructor
  · intro hq
    have hq2 := List.of_mem_filter hq
    rw [decide_eq_true_eq] at hq2
    by_contra hnex
    push_neg at hnex
    exact hq2 (get2_csr_to_ordinary_none M r hr q hnex)
  · rintro ⟨j, hj, hcj⟩
    apply List.mem_filter.mpr
    refine ⟨List.mem_range.mpr (hcj ▸ hcol_lt j hj), ?_⟩
    rw [decide_eq_true_eq]
    subst hcj
    exact fun h0 => hval_ne j hj ((hat j hj).symm.trans h0)

theorem csr_roundtrip_structEq (M : Matrix) (hv : ValidCSR M)
    (hdist : ∀ r, r < M.noRows → ((csrRowPairs M r).map Prod.fst).Nodup) :
    structEq (ordinary_to_csr M.noRows M.noCols (csr_to_ordinary M)) M := by
  have h5 := hv.2.2.2.2.1
  have h6 := hv.2.2.2.2.2.1
  have h8 := hv.2.2.2.2.2.2.2
  have hcount : ∀ r, r < M.noRows →
      (denseRowCols (csr_to_ordinary M) M.noCols r).length =
        M.rowPointers.getD (r + 1) 0 - M.rowPointers.getD r 0 := by
    intro r hr
    obtain ⟨hmemiff, -⟩ := csr_dense_row_facts M hv r hr (hdist r hr)
    have hperm : (denseRowCols (csr_to_ordinary M) M.noCols r).Perm
        ((cRange (M.rowPointers.getD r 0)
          (M.rowPointers.getD (r + 1) 0)).map
          (fun j => M.colIndices.getD j 0)) := by
      refine (List.perm_ext_iff_of_nodup ?_ ?_).mpr ?_
      · exact List.Nodup.filter _ (List.nodup_range _)
      · have h := hdist r hr
        unfold csrRowPairs at h
        rw [List.map_map] at h
        exact h
      · intro q
        rw [hmemiff q, List.mem_map]
    have hlen := hperm.length_eq
    rw [List.length_map] at hlen
    rw [hlen]
    unfold cRange
    rw [List.length_range']
  have htel : ∀ m, m ≤ M.noRows →
      (((List.range M.noRows).map (fun i =>
        (denseRowCols (csr_to_ordinary M) M.noCols i).length)).take m).sum =
        M.rowPointers.getD m 0 := by
    intro m
    induction m with
    | zero => intro _; simpa using h6.symm
    | succ m ih =>
      intro hm
      have e : ((List.range M.noRows).map (fun i =>
          (denseRowCols (csr_to_ordinary M) M.noCols i).length)).take
            (m + 1) =
          (List.range (m + 1)).map (fun i =>
            (denseRowCols (csr_to_ordinary M) M.noCols i).length) := by
        rw [← List.map_take, List.take_range, min_eq_left hm]
      have e2 : (List.range m).map (fun i =>
          (denseRowCols (csr_to_ordinary M) M.noCols i).length) =
          ((List.range M.noRows).map (fun i =>
            (denseRowCols (csr_to_ordinary M) M.noCols i).length)).take m := by
        rw [← List.map_take, List.take_range, min_eq_left (by omega)]
      rw [e, List.range_succ, List.map_append, List.sum_append, e2,
        ih (by omega)]
      have hmono := valid_rp_mono M hv m (m + 1) (by omega) (by omega)
      have hc := hcount m (by omega)
      simp only [List.map_cons, List.map_nil, List.sum_cons, List.sum_nil]
      rw [hc]
      omega
  refine ⟨rfl, rfl, ?_, ?_, ?_⟩
  · apply List.ext_getElem
    · rw [ordinary_to_csr_eq]
      dsimp only
      rw [List.length_cons, ptrSums_length, List.length_map,
        List.length_range, h5]
    · intro k hk1 hk2
      have hk : k ≤ M.noRows := by
        rw [h5] at hk2
        omega
      rw [← List.getD_eq_getElem _ 0 hk1, ← List.getD_eq_getElem _ 0 hk2,
        otc_rp_getD M.noRows M.noCols (csr_to_ordinary M) k hk, htel k hk]
  · rw [ordinary_to_csr_eq]
    dsimp only
    rw [List.length_flatMap]
    have e : List.map (List.length ∘ fun i =>
        (denseRowCols (csr_to_ordinary M) M.noCols i).map
          (fun j => ((csr_to_ordinary M).getD i []).getD j 0))
        (List.range M.noRows) =
        (List.range M.noRows).map (fun i =>
          (denseRowCols (csr_to_ordinary M) M.noCols i).length) := by
      apply List.map_congr_left
      intro r _
      simp
    rw [e]
    have e2 : (List.range M.noRows).map (fun i =>
        (denseRowCols (csr_to_ordinary M) M.noCols i).length) =
        ((List.range M.noRows).map (fun i =>
          (denseRowCols (csr_to_ordinary M) M.noCols i).length)).take
          M.noRows := by
      rw [← List.map_take, List.take_range, min_self]
    rw [e2, htel M.noRows (le_refl _), h8]
  · intro r hr
    have hr' : r < M.noRows := hr
    obtain ⟨hmemiff, hat⟩ := csr_dense_row_facts M hv r hr' (hdist r hr')
    have hpairs : csrRowPairs (ordinary_to_csr M.noRows M.noCols
        (csr_to_ordinary M)) r =
        (denseRowCols (csr_to_ordinary M) M.noCols r).map
          (fun q => (q, ((csr_to_ordinary M).getD r []).getD q 0)) :=
      otc_row_slice M.noRows M.noCols (csr_to_ordinary M) r hr'
    rw [hpairs]
    apply Multiset.coe_eq_coe.mpr
    refine (List.perm_ext_iff_of_nodup ?_ ?_).mpr ?_
    · exact List.Nodup.map_on
        (fun x _ y _ hxy => (congrArg Prod.fst hxy : x = y))
        (List.Nodup.filter _ (List.nodup_range _))
    · exact List.Nodup.of_map Prod.fst (hdist r hr')
    · intro a
      constructor
      · intro ha
        obtain ⟨q, hq, hpa⟩ := List.mem_map.mp ha
        obtain ⟨j, hj, hcj⟩ := (hmemiff q).mp hq
        subst hpa
        have hv2 : ((csr_to_ordinary M).getD r []).getD q 0 =
            M.values.getD j 0 := by
          rw [← hcj]
          exact hat j hj
        apply List.mem_map.mpr
        refine ⟨j, hj, ?_⟩
        rw [hcj, hv2]
      · intro ha
        unfold csrRowPairs at ha
        obtain ⟨j, hj, hpa⟩ := List.mem_map.mp ha
        subst hpa
        apply List.mem_map.mpr
        refine ⟨M.colIndices.getD j 0, (hmemiff _).mpr ⟨j, hj, rfl⟩, ?_⟩
        dsimp only
        rw [hat j hj]


/-- **C6 counterexample**: the original round-trip claim fails on a
validator-accepted matrix.  `dupColsM` (one row storing column 0 twice)
passes every check of the validator, but converting it to dense loses
one of the duplicate-column entries, so converting back does not
structurally equal the original. -/
theorem C6_duplicate_columns_break_roundtrip :
    ValidCSR dupColsM ∧
      ¬ structEq (ordinary_to_csr dupColsM.noRows dupColsM.noCols
        (csr_to_ordinary dupColsM)) dupColsM := by
  constructor
  · decide
  · with_unfolding_all decide

/-- **C6** (amended): the dense→CSR→dense direction round-trips exactly
for every dense matrix of the stated positive dimensions, and the
CSR→dense→CSR direction structurally equals the input (same dimensions,
row pointers and stored-entry count, same per-row multiset of
`(column, value)` pairs) for every valid CSR matrix whose rows store
each column at most once — without that extra distinctness condition
the second direction fails, see the counterexample. -/
theorem C6_roundtrip_conversions :
    (∀ (noRows noCols : Nat) (D : List (List ℚ)), 0 < noRows → 0 < noCols →
      D.length = noRows → (∀ row ∈ D, row.length = noCols) →
      csr_to_ordinary (ordinary_to_csr noRows noCols D) = D) ∧
    (∀ M : Matrix, ValidCSR M →
      (∀ r, r < M.noRows → ((csrRowPairs M r).map Prod.fst).Nodup) →
      structEq (ordinary_to_csr M.noRows M.noCols (csr_to_ordinary M)) M) :=
  ⟨fun noRows noCols D h1 h2 h3 h4 =>
    dense_roundtrip noRows noCols D h1 h2 h3 h4,
    fun M hv hdist => csr_roundtrip_structEq M hv hdist⟩

/-- Witness for C6 at concrete inputs: a 1×2 dense matrix and the 2×3
example matrix satisfy the hypotheses and the theorem applies. -/
theorem C6_roundtrip_conversions_witness :
    csr_to_ordinary (ordinary_to_csr 1 2 [[(3 : ℚ), 0]]) = [[(3 : ℚ), 0]] ∧
    structEq (ordinary_to_csr exampleA.noRows exampleA.noCols
      (csr_to_ordinary exampleA)) exampleA :=
  ⟨C6_roundtrip_conversions.1 1 2 [[(3 : ℚ), 0]] (by decide) (by decide)
      (by decide) (by decide),
    C6_roundtrip_conversions.2 exampleA (by decide) (by decide)⟩

end CSR

